import Mathlib

/-!
Verification development for the tennis_algorithms repository
(`prep_data.py`, `analyse_data.py`).

A row of the parsed csv data is modelled by the structure `Match`.
The Python row indices map to fields as follows:

  row[0]  tournament name      (not needed by the verified functions,
                                which all work per tournament-instance)
  row[4]  player 1             `player1`
  row[5]  player 2             `player2`
  row[6]  rank 1               `rank1`   (0 = unranked sentinel)
  row[7]  rank 2               `rank2`
  row[8]  3x2 results array    `sets1`, `sets2`, `sets3`
  row[9]  comment              `comment` ("Completed" or e.g. "X Retired")
  row[11] winner               `winner`
  row[12] loser                `loser`
  row[13] round                `round`   (`none` models the 0 sentinel,
                                          `some s` the assigned label)
  row[14] round number "r"     `rnum`    (0 until reconstruction)

Players are strings in the source; the bracket reconstructors are stated
over an arbitrary `DecidableEq` player type `P` (instantiated at `String`)
so that concrete tournaments over `Fin 8` can be transported to arbitrary
player names.  Scores use `ℚ`: Python floats are modelled as exact
rationals, so "equals 1.0 within floating tolerance" is modelled as exact
equality of rationals.
-/

structure Match (P : Type) where
  player1 : P
  player2 : P
  rank1 : ℤ
  rank2 : ℤ
  sets1 : ℕ × ℕ
  sets2 : ℕ × ℕ
  sets3 : ℕ × ℕ
  comment : String
  winner : P
  loser : P
  round : Option String
  rnum : ℕ
  deriving DecidableEq, Repr

/-- A raw row before `find_winner_loser` has appended winner and loser
(Python indices 4..9 of the processed line). -/
structure RawMatch where
  player1 : String
  player2 : String
  rank1 : ℤ
  rank2 : ℤ
  sets1 : ℕ × ℕ
  sets2 : ℕ × ℕ
  sets3 : ℕ × ℕ
  comment : String
  deriving DecidableEq, Repr

/-- Executable model of Python's `str.replace` on the character list: every
non-overlapping occurrence of `pat` (scanned left to right) is replaced by
`rep`.  The fuel argument is instantiated with the string length, which
bounds the number of scanning steps. -/
def pyReplaceAux (pat rep : List Char) : ℕ → List Char → List Char
  | 0, s => s
  | _ + 1, [] => []
  | fuel + 1, c :: rest =>
    if pat ≠ [] ∧ pat.isPrefixOf (c :: rest) then
      rep ++ pyReplaceAux pat rep fuel (List.drop (pat.length - 1) rest)
    else
      c :: pyReplaceAux pat rep fuel rest

/-- Python's `s.replace(pat, rep)` for a non-empty pattern. -/
def pyReplace (s pat rep : String) : String :=
  ⟨pyReplaceAux pat.data rep.data s.data.length s.data⟩

/-- Model of `find_winner_loser` (prep_data.py, lines 89-141): determines winner and
loser of a raw row and appends them, producing a full row.  The appended
`round`/`rnum` sentinels (the two zeroes appended by `read_data`) are also
set here, modelling `read_data` lines 170-173. -/
def find_winner_loser (r : RawMatch) : Match String :=
  let mk : String → String → Match String := fun w l =>
    ⟨r.player1, r.player2, r.rank1, r.rank2, r.sets1, r.sets2, r.sets3,
      r.comment, w, l, none, 0⟩
  -- Handle matches with a retirement
  if r.comment ≠ "Completed" then
    let retiree := pyReplace r.comment " Retired" ""
    if r.player1 = retiree then mk r.player2 r.player1
    else mk r.player1 r.player2
  -- Handle two set matches: third set is the (0,0) recoding of ""
  else if r.sets3 = (0, 0) then
    if r.sets1.1 > r.sets1.2 then mk r.player1 r.player2
    else mk r.player2 r.player1
  -- Handle 3 set matches: count sets where player 1's score minus
  -- player 2's is positive
  else
    if 1 < ([r.sets1, r.sets2, r.sets3].countP fun s => s.2 < s.1) then
      mk r.player1 r.player2
    else mk r.player2 r.player1

/-- Model of `get_unique_players` (analyse_data.py, lines 93-109): all player 1s,
extended with all player 2s, with duplicates removed.  Python's
`list(set(...))` iterates in unspecified hash order; it is modelled by
the deterministic `List.dedup` of the concatenation.  None of the verified
properties depend on the order of this list. -/
def get_unique_players {P : Type} [DecidableEq P] (data : List (Match P)) : List P :=
  (data.map (·.player1) ++ data.map (·.player2)).dedup

/-- Python's `sorted(items, reverse=True, key=lambda item: item[1])`:
a stable sort, descending in the second component. -/
def sortDescBy {P α : Type} [LinearOrder α] (l : List (P × α)) : List (P × α) :=
  l.insertionSort fun a b => b.2 ≤ a.2

/-- Model of `calc_ww` (analyse_data.py, lines 112-142): Winners Win.  The
`try/except KeyError` around `match_counter[row[11]] += 1` is modelled by
the membership test on the dictionary's key list. -/
def calc_ww (data : List (Match String)) : List (String × ℕ) :=
  let unique_players := get_unique_players data
  let match_counter : String → ℕ :=
    data.foldl
      (fun c row =>
        if row.winner ∈ unique_players then
          Function.update c row.winner (c row.winner + 1)
        else c)
      (fun _ => 0)
  sortDescBy (unique_players.map fun p => (p, match_counter p))

/-- Model of `calc_wdl` (analyse_data.py, lines 145-181): Winners Don't Lose.
Both `try/except KeyError` blocks are modelled by membership tests; the
division `1 / row[14]` raises `ZeroDivisionError` in Python when the round
number is 0 (the division is not guarded), which is modelled by the
`Except.error` branch.  Note that in Python the `KeyError` from the
subscript lookup is raised before the division is evaluated, so a row
whose loser is not a known player never reaches the division. -/
def calc_wdl (data : List (Match String)) : Except String (List (String × ℚ)) := do
  let unique_players := get_unique_players data
  let d ← data.foldlM
    (fun (d : String → ℚ) row => do
      -- try: wdl_dict[row[11]] += row[14]   except KeyError: pass
      let d1 := if row.winner ∈ unique_players then
          Function.update d row.winner (d row.winner + row.rnum) else d
      -- try: wdl_dict[row[12]] -= (1 / row[14])   except KeyError: pass
      if row.loser ∈ unique_players then
        if row.rnum = 0 then Except.error "ZeroDivisionError"
        else pure (Function.update d1 row.loser (d1 row.loser - 1 / (row.rnum : ℚ)))
      else pure d1)
    (fun _ => 0)
  return sortDescBy (unique_players.map fun p => (p, d p))

/-- The beaten-by multiset (analyse_data.py, lines 211-214):
`[x[11] for x in data if x[12] == k]`. -/
def beaten_by {P : Type} [DecidableEq P] (data : List (Match P)) (k : P) : List P :=
  (data.filter fun x => x.loser = k).map (·.winner)

/-- Python's `max(l)` / `min(l)`, modelled totally with junk value 0 on the
empty list (where Python raises `ValueError`; see the checked variants). -/
def pymax (l : List ℚ) : ℚ := l.max?.getD 0

def pymin (l : List ℚ) : ℚ := l.min?.getD 0

def pymaxChecked (l : List ℚ) : Except String ℚ :=
  match l.max? with
  | some m => Except.ok m
  | none => Except.error "ValueError: max() arg is an empty sequence"

def pyminChecked (l : List ℚ) : Except String ℚ :=
  match l.min? with
  | some m => Except.ok m
  | none => Except.error "ValueError: min() arg is an empty sequence"

/-- Distributing one share of score to every victor of a player
(analyse_data.py, lines 235-236). -/
def wbwShareStep {P : Type} [DecidableEq P] (share : ℚ) (shares : P → ℚ)
    (victors : List P) : P → ℚ :=
  victors.foldl (fun s v => Function.update s v (s v + share)) shares

/-- The inner player loop of one WBW iteration (analyse_data.py, lines
227-241), threading the pair (shares_dict, wbw_dict).  The second
component models the in-place self-increment `wbw_dict[k] += wbw_dict[k]`
performed for players who never lost. -/
def wbwSharesLoop {P : Type} [DecidableEq P] (bb : P → List P) (players : List P)
    (acc : (P → ℚ) × (P → ℚ)) : (P → ℚ) × (P → ℚ) :=
  players.foldl
    (fun acc k =>
      let victors := bb k
      if victors.length ≠ 0 then
        (wbwShareStep (acc.2 k / (victors.length : ℚ)) acc.1 victors, acc.2)
      else
        (acc.1, Function.update acc.2 k (acc.2 k + acc.2 k)))
    acc

/-- One full WBW iteration (analyse_data.py, lines 220-244): zero the
shares, run the inner loop, then rebuild the score mapping as
`v * 0.85 + 0.15 / n` from the shares only. -/
def wbwStep {P : Type} [DecidableEq P] (n : ℕ) (players : List P) (bb : P → List P)
    (w : P → ℚ) : P → ℚ :=
  let shares := (wbwSharesLoop bb players ((fun _ => 0), w)).1
  fun k => shares k * 0.85 + 0.15 / (n : ℚ)

/-- The convergence loop (analyse_data.py, lines 217-254): up to `fuel`
iterations, stopping early when both the maximum and the minimum score
moved by less than `ε`. -/
def wbwLoop {P : Type} [DecidableEq P] (n : ℕ) (players : List P) (bb : P → List P)
    (ε : ℚ) : ℕ → (P → ℚ) → P → ℚ
  | 0, w => w
  | fuel + 1, w =>
    let maxPre := pymax (players.map w)
    let minPre := pymin (players.map w)
    let w' := wbwStep n players bb w
    if |pymax (players.map w') - maxPre| < ε ∧ |pymin (players.map w') - minPre| < ε then
      w'
    else
      wbwLoop n players bb ε fuel w'

/-- Model of `calc_wbw` (analyse_data.py, lines 184-263): Winners Beat Winners,
with the stopping threshold `ε` passed explicitly (default `1e-11` in the
source) and the iteration cap 1000. -/
def calc_wbw {P : Type} [DecidableEq P] (data : List (Match P)) (ε : ℚ) : List (P × ℚ) :=
  let unique_players := get_unique_players data
  let n := unique_players.length
  let wbw0 : P → ℚ := fun _ => 1 / (n : ℚ)
  let w := wbwLoop n unique_players (beaten_by data) ε 1000 wbw0
  sortDescBy (unique_players.map fun p => (p, w p))

/-- Checked inner loop: the division computing `share_of_score` reports
`ZeroDivisionError` instead of dividing when its denominator is zero. -/
def wbwSharesLoopChecked {P : Type} [DecidableEq P] (bb : P → List P) (players : List P)
    (acc : (P → ℚ) × (P → ℚ)) : Except String ((P → ℚ) × (P → ℚ)) :=
  players.foldlM
    (fun acc k =>
      let victors := bb k
      if victors.length ≠ 0 then
        if victors.length = 0 then Except.error "ZeroDivisionError"
        else Except.ok
          (wbwShareStep (acc.2 k / (victors.length : ℚ)) acc.1 victors, acc.2)
      else
        Except.ok (acc.1, Function.update acc.2 k (acc.2 k + acc.2 k)))
    acc

/-- Checked WBW iteration body in source order: `max`/`min` of the current
scores are taken before the inner loop runs, so an empty score dictionary
fails at `max(...)` first. -/
def wbwLoopChecked {P : Type} [DecidableEq P] (n : ℕ) (players : List P)
    (bb : P → List P) (ε : ℚ) : ℕ → (P → ℚ) → Except String (P → ℚ)
  | 0, w => Except.ok w
  | fuel + 1, w => do
    let maxPre ← pymaxChecked (players.map w)
    let minPre ← pyminChecked (players.map w)
    let sh ← wbwSharesLoopChecked bb players ((fun _ => 0), w)
    let w' : P → ℚ := fun k => sh.1 k * 0.85 + 0.15 / (n : ℚ)
    let maxPost ← pymaxChecked (players.map w')
    let minPost ← pyminChecked (players.map w')
    if |maxPost - maxPre| < ε ∧ |minPost - minPre| < ε then
      Except.ok w'
    else
      wbwLoopChecked n players bb ε fuel w'

/-- Model of `calc_wbw` with Python's failure modes made explicit: `ValueError`
from `max`/`min` of an empty collection and `ZeroDivisionError` from the
share division. -/
def calc_wbwChecked {P : Type} [DecidableEq P] (data : List (Match P)) (ε : ℚ) :
    Except String (List (P × ℚ)) := do
  let unique_players := get_unique_players data
  let n := unique_players.length
  let wbw0 : P → ℚ := fun _ => 1 / (n : ℚ)
  let w ← wbwLoopChecked n unique_players (beaten_by data) ε 1000 wbw0
  return sortDescBy (unique_players.map fun p => (p, w p))

/-- The inner player loop with the "never lost" self-increment branch
(analyse_data.py, lines 238-241) removed: players with no victors are
simply skipped. -/
def wbwSharesLoopNB {P : Type} [DecidableEq P] (bb : P → List P) (players : List P)
    (acc : (P → ℚ) × (P → ℚ)) : (P → ℚ) × (P → ℚ) :=
  players.foldl
    (fun acc k =>
      let victors := bb k
      if victors.length ≠ 0 then
        (wbwShareStep (acc.2 k / (victors.length : ℚ)) acc.1 victors, acc.2)
      else
        acc)
    acc

def wbwStepNB {P : Type} [DecidableEq P] (n : ℕ) (players : List P) (bb : P → List P)
    (w : P → ℚ) : P → ℚ :=
  let shares := (wbwSharesLoopNB bb players ((fun _ => 0), w)).1
  fun k => shares k * 0.85 + 0.15 / (n : ℚ)

def wbwLoopNB {P : Type} [DecidableEq P] (n : ℕ) (players : List P) (bb : P → List P)
    (ε : ℚ) : ℕ → (P → ℚ) → P → ℚ
  | 0, w => w
  | fuel + 1, w =>
    let maxPre := pymax (players.map w)
    let minPre := pymin (players.map w)
    let w' := wbwStepNB n players bb w
    if |pymax (players.map w') - maxPre| < ε ∧ |pymin (players.map w') - minPre| < ε then
      w'
    else
      wbwLoopNB n players bb ε fuel w'

/-- Model of `calc_wbw` as it would be with the dead self-increment branch deleted. -/
def calc_wbw_nobranch {P : Type} [DecidableEq P] (data : List (Match P)) (ε : ℚ) :
    List (P × ℚ) :=
  let unique_players := get_unique_players data
  let n := unique_players.length
  let wbw0 : P → ℚ := fun _ => 1 / (n : ℚ)
  let w := wbwLoopNB n unique_players (beaten_by data) ε 1000 wbw0
  sortDescBy (unique_players.map fun p => (p, w p))

/-- The WBW score mapping after `i` completed iterations of the loop: the
source performs `wbwStep` repeatedly, and early stopping only truncates
this sequence (see `wbwLoop_eq_iterate`). -/
def wbwIter {P : Type} [DecidableEq P] (data : List (Match P)) (i : ℕ) : P → ℚ :=
  let players := get_unique_players data
  let n := players.length
  (wbwStep n players (beaten_by data))^[i] fun _ => 1 / (n : ℚ)

/-- Closed form of the shares accumulated by the inner WBW loop. -/
def sharesFormula {P : Type} [DecidableEq P] (bb : P → List P) (players : List P)
    (w : P → ℚ) (x : P) : ℚ :=
  (players.map fun k =>
    if (bb k).length ≠ 0 then ((bb k).count x : ℚ) * (w k / ((bb k).length : ℚ))
    else 0).sum

/-- One completed match in which A beats B. -/
def wbwCounterData : List (Match String) :=
  [find_winner_loser ⟨"A", "B", 1, 2, (6, 4), (6, 4), (0, 0), "Completed"⟩]

/-- Two completed matches: A beats B, then B beats A, so both players have a
non-empty beaten-by multiset. -/
def wbwCycleData : List (Match String) :=
  [find_winner_loser ⟨"A", "B", 1, 2, (6, 4), (6, 4), (0, 0), "Completed"⟩,
   find_winner_loser ⟨"A", "B", 1, 2, (4, 6), (4, 6), (0, 0), "Completed"⟩]

/-- A completed match whose round number is still the zero sentinel. -/
def wdlZeroRow : Match String :=
  ⟨"A", "B", 1, 2, (6, 4), (6, 4), (0, 0), "Completed", "A", "B", none, 0⟩

/-- The number of rows whose comment marks a normally completed
(non-retirement) match. -/
def completedCount (data : List (Match String)) : ℕ :=
  data.countP fun m => m.comment == "Completed"

/-- A match that ended with player A retiring: B is recorded as the winner. -/
def retirementRaw : RawMatch :=
  ⟨"A", "B", 1, 2, (3, 2), (0, 0), (0, 0), "A Retired"⟩

/-- Floor base-2 logarithm, driven by fuel (the fuel is instantiated with `n` itself,
which bounds the number of halvings). -/
def log2fuel : ℕ → ℕ → ℕ
  | 0, _ => 0
  | fuel + 1, n => if n ≥ 2 then log2fuel fuel (n / 2) + 1 else 0

/-- Python's `round(math.log(x, 2))` (prep_data.py, lines 290-293): the
nearest integer to log₂ x.  For a positive integer x, log₂ x is never
exactly halfway between two integers, and the nearest integer is k exactly
when 2^(2k-1) ≤ x² < 2^(2k+1), i.e. k = (⌊log₂ x²⌋ + 1) / 2. -/
def pyRoundLog2 (x : ℕ) : ℕ := (log2fuel (x * x) (x * x) + 1) / 2

/-- The round label for a stage (prep_data.py, lines 298-302): stages 1-3
are looked up in `tournament_dict`, other stages get
`Round (stage_iterable.index(stage) + 1)` where the index is `k - stage`. -/
def round_name (k stage : ℕ) : String :=
  if stage = 1 then "Final"
  else if stage = 2 then "Semi-final"
  else if stage = 3 then "Quarter-final"
  else "Round " ++ toString (k - stage + 1)

/-- The body of the row loop of `reconstruct_brackets` (prep_data.py, lines
313-329) for one unresolved row, given the loser/winner lists of the rows
that were unresolved at the start of the stage.  `current_stage_losers` is
`set(losers) - set(winners)`, modelled by the two membership tests. -/
def stageRow {P : Type} [DecidableEq P] (k stage : ℕ) (losers winners : List P)
    (row : Match P) : Match P :=
  if row.round ≠ none then row
  else
    let row1 :=
      if row.loser ∈ losers ∧ row.loser ∉ winners then
        {row with round := some (round_name k stage), rnum := k - stage + 1}
      else row
    if stage = 2 ∧ (row.winner ∈ losers ∧ row.winner ∉ winners) ∧
        (row.loser ∈ losers ∧ row.loser ∉ winners) then
      {row1 with round := some "Third-place Playoff", rnum := k - stage + 2}
    else row1

/-- One stage of `reconstruct_brackets` (prep_data.py, lines 296-329):
compute the unresolved losers and winners, then update every row. -/
def processStage {P : Type} [DecidableEq P] (k stage : ℕ) (rows : List (Match P)) :
    List (Match P) :=
  let unresolved := rows.filter fun r => r.round = none
  rows.map (stageRow k stage (unresolved.map (·.loser)) (unresolved.map (·.winner)))

/-- Model of `list(range(round(num_stages), 0, -1))` (prep_data.py, line 293). -/
def stageList (k : ℕ) : List ℕ := (List.range k).reverse.map (· + 1)

/-- Model of `reconstruct_brackets` (prep_data.py, lines 267-329) for the rows of one
tournament-instance: the source groups the data by the tournament-start key
and runs exactly this stage loop on each group. -/
def reconstruct_brackets {P : Type} [DecidableEq P] (rows : List (Match P)) :
    List (Match P) :=
  let k := pyRoundLog2 (rows.length + 1)
  (stageList k).foldl (fun rs stage => processStage k stage rs) rows

/-- A completed match row with winner and loser filled in and the bracket
fields still at their sentinels. -/
def mkBracketRow {P : Type} (p1 p2 w l : P) : Match P :=
  ⟨p1, p2, 0, 0, (6, 4), (6, 4), (0, 0), "Completed", w, l, none, 0⟩

/-- An 8-match tournament-instance: a full 7-match single-elimination
bracket (A beats B, C beats D, E beats F, G beats H; A beats C, E beats G;
final A beats E) plus the third-place playoff C beats G between the two
semifinal losers. -/
def playoffInstance : List (Match String) :=
  [mkBracketRow "A" "B" "A" "B", mkBracketRow "C" "D" "C" "D",
   mkBracketRow "E" "F" "E" "F", mkBracketRow "G" "H" "G" "H",
   mkBracketRow "A" "C" "A" "C", mkBracketRow "E" "G" "E" "G",
   mkBracketRow "A" "E" "A" "E", mkBracketRow "C" "G" "C" "G"]

/-- Renaming the players of a row; all non-player fields are kept. -/
def mapPlayers {P Q : Type} (f : P → Q) (m : Match P) : Match Q :=
  ⟨f m.player1, f m.player2, m.rank1, m.rank2, m.sets1, m.sets2, m.sets3,
    m.comment, f m.winner, f m.loser, m.round, m.rnum⟩

/-- The projection of a row to the fields `reconstruct_brackets` reads and
writes: (winner, loser, round, round number). -/
def algShape {P : Type} (m : Match P) : P × P × Option String × ℕ :=
  (m.winner, m.loser, m.round, m.rnum)

/-- The function `stageRow` transported to shapes. -/
def shapeStage {P : Type} [DecidableEq P] (k stage : ℕ) (losers winners : List P)
    (t : P × P × Option String × ℕ) : P × P × Option String × ℕ :=
  if t.2.2.1 ≠ none then t
  else
    let t1 :=
      if t.2.1 ∈ losers ∧ t.2.1 ∉ winners then
        (t.1, t.2.1, some (round_name k stage), k - stage + 1)
      else t
    if stage = 2 ∧ (t.1 ∈ losers ∧ t.1 ∉ winners) ∧ (t.2.1 ∈ losers ∧ t.2.1 ∉ winners) then
      (t.1, t.2.1, some "Third-place Playoff", k - stage + 2)
    else t1

/-- The canonical 7-match single-elimination bracket over players `Fin 8`:
quarterfinals (0 beats 1, 2 beats 3, 4 beats 5, 6 beats 7), semifinals
(0 beats 2, 4 beats 6) and the final (0 beats 4).  Every valid bracket over
arbitrary players, with arbitrary pairings and outcomes, is a renaming of
this one: the renaming absorbs which player of each pair won. -/
def bracket7 : List (Match (Fin 8)) :=
  [mkBracketRow 0 1 0 1, mkBracketRow 2 3 2 3, mkBracketRow 4 5 4 5,
   mkBracketRow 6 7 6 7, mkBracketRow 0 2 0 2, mkBracketRow 4 6 4 6,
   mkBracketRow 0 4 0 4]

/-- A list of records is a valid 7-match single-elimination bracket when,
up to an injective renaming of the 8 players and a reordering of the
records, its algorithmic shapes (winner, loser, unset round, unset round
number) are those of the canonical bracket `bracket7`. -/
def ValidBracket7 (ms : List (Match String)) : Prop :=
  ∃ p : Fin 8 → String, Function.Injective p ∧
    (ms.map algShape).Perm (bracket7.map (algShape ∘ mapPlayers p))

def playerName : Fin 8 → String
  | 0 => "P0"
  | 1 => "P1"
  | 2 => "P2"
  | 3 => "P3"
  | 4 => "P4"
  | 5 => "P5"
  | 6 => "P6"
  | 7 => "P7"

/-- The canonical bracket with concrete string players. -/
def bracket7String : List (Match String) := bracket7.map (mapPlayers playerName)

/-- Update the value stored under key `k` in an association list (Python
dict entries have unique keys; missing keys are handled separately by the
`KeyError` in `compareRowPlayer`). -/
def updateEntry {V : Type} (k : String) (f : V → V) :
    List (String × V) → List (String × V)
  | [] => []
  | (k', v) :: rest =>
    if k' = k then (k', f v) :: rest else (k', v) :: updateEntry k f rest

/-- One participant's processing inside the row loop of `compare_wbw_wta`
(analyse_data.py, lines 318-331): look the player up in `ranks_data`
(raising `KeyError` when absent, as the subscript does), and append their
official rank to both dictionaries when no rank was captured yet and the
rank is not the unranked sentinel 0. -/
def compareRowPlayer (pl : String) (rank : ℤ)
    (st : List (String × (ℚ × Option ℤ)) × List (String × (ℕ × Option ℤ))) :
    Except String (List (String × (ℚ × Option ℤ)) × List (String × (ℕ × Option ℤ))) :=
  match st.1.lookup pl with
  | none => Except.error "KeyError"
  | some v =>
    if v.2 = none ∧ rank ≠ 0 then
      Except.ok (updateEntry pl (fun w => (w.1, some rank)) st.1,
        updateEntry pl (fun w => (w.1, some rank)) st.2)
    else Except.ok st

/-- The per-tournament body of `compare_wbw_wta` (analyse_data.py, lines
296-339), given the WBW scores `tourn_wbw_scores` already computed over the
trailing 52-week window and the tournament-instance's rows.  An entry value
`(score, none)` models the singleton list `[score]` of `ranks_data`
(similarly `(position, none)` for `ranks_data_alt`, whose keys are the same
players enumerated from 1 in descending score order), and `(score, some r)`
models the two-element list after the official rank has been appended. -/
def compareTournamentState (wbwScores : List (String × ℚ))
    (tournData : List (Match String)) :
    Except String (List (String × (ℚ × Option ℤ)) × List (String × (ℕ × Option ℤ))) :=
  let ranks0 : List (String × (ℚ × Option ℤ)) :=
    wbwScores.map fun kv => (kv.1, (kv.2, none))
  let alt0 : List (String × (ℕ × Option ℤ)) :=
    (List.enumFrom 1 (sortDescBy wbwScores)).map fun iv => (iv.2.1, (iv.1, none))
  tournData.foldlM
    (fun st row => do
      let st1 ← compareRowPlayer row.player1 row.rank1 st
      compareRowPlayer row.player2 row.rank2 st1)
    (ranks0, alt0)

/-- The rows emitted for one tournament (analyse_data.py, lines 333-339):
the values of the dictionaries whose rank slot was filled, i.e. Python's
`[v for v in ranks_data.values() if len(v) == 2]`. -/
def compareTournament (wbwScores : List (String × ℚ))
    (tournData : List (Match String)) :
    Except String (List (ℚ × ℤ) × List (ℕ × ℤ)) := do
  let st ← compareTournamentState wbwScores tournData
  return ((st.1.filter fun kv => kv.2.2.isSome).map fun kv => (kv.2.1, kv.2.2.getD 0),
    (st.2.filter fun kv => kv.2.2.isSome).map fun kv => (kv.2.1, kv.2.2.getD 0))

/-- The invariant behind C7: an unranked player's entries stay unfilled. -/
def UnfilledFor (p : String)
    (st : List (String × (ℚ × Option ℤ)) × List (String × (ℕ × Option ℤ))) : Prop :=
  (∀ e ∈ st.1, e.1 = p → e.2.2 = none) ∧ (∀ e ∈ st.2, e.1 = p → e.2.2 = none)

def wbwScoresW : List (String × ℚ) := [("A", 1), ("B", 2)]

def tournDataW : List (Match String) :=
  [⟨"A", "B", 0, 5, (4, 6), (4, 6), (0, 0), "Completed", "B", "A", none, 1⟩]

def compareStateW :
    List (String × (ℚ × Option ℤ)) × List (String × (ℕ × Option ℤ)) :=
  ([("A", ((1 : ℚ), (none : Option ℤ))), ("B", ((2 : ℚ), some 5))],
    [("B", ((1 : ℕ), some (5 : ℤ))), ("A", ((2 : ℕ), (none : Option ℤ)))])

/-- Model of `match_counter` of `reconstruct_brackets_rr` (prep_data.py, lines
357-373): the number of matches a player appears in, counting both player
slots.  The `try/except KeyError` never fires because the dictionary's keys
are exactly the players of the rows. -/
def rr_match_count {P : Type} [DecidableEq P] (rows : List (Match P)) (x : P) : ℕ :=
  (rows.countP fun r => decide (r.player1 = x)) +
    (rows.countP fun r => decide (r.player2 = x))

/-- Model of `min_matches` (prep_data.py, line 378): the minimum participation count
among players with more than 2 matches (excluding "alternates").  Python's
`min` raises on an empty collection; the claims are about instances where
the collection is non-empty, on which `getD 0` agrees with Python. -/
def rr_min_matches {P : Type} [DecidableEq P] (rows : List (Match P)) : ℕ :=
  ((((get_unique_players rows).map (rr_match_count rows)).filter
    fun v => decide (2 < v)).min?).getD 0

/-- Model of `max_matches` (prep_data.py, line 379). -/
def rr_max_matches {P : Type} [DecidableEq P] (rows : List (Match P)) : ℕ :=
  (((get_unique_players rows).map (rr_match_count rows)).max?).getD 0

/-- Model of `group_stage_losers` (prep_data.py, line 382). -/
def rr_group_losers {P : Type} [DecidableEq P] (rows : List (Match P)) : List P :=
  (get_unique_players rows).filter fun k =>
    decide (rr_match_count rows k ≤ rr_min_matches rows)

/-- Model of `finalists` (prep_data.py, line 384). -/
def rr_finalists {P : Type} [DecidableEq P] (rows : List (Match P)) : List P :=
  (get_unique_players rows).filter fun k =>
    decide (rr_match_count rows k = rr_max_matches rows)

/-- Relabel a row as a group-stage match (`tournament_dict["group"]`, round
number 1), as done both by the group branch and by the repeated-pairing
reclassification (prep_data.py, lines 396-398, 420-421, 445-446, 451-452). -/
def setGroup {P : Type} (m : Match P) : Match P :=
  {m with round := some "Group Stage", rnum := 1}

/-- Mutating the saved earlier row in place (the shallow-copied
`final_lineup_repeated` / `semi_final_lineup_repeated` alias): the row at
the given position of the already-processed prefix is relabeled as a group
match. -/
def reclass {P : Type} : List (Match P) → ℕ → List (Match P)
  | [], _ => []
  | r :: rs, 0 => setGroup r :: rs
  | r :: rs, n + 1 => r :: reclass rs n

/-- The loop state of `reconstruct_brackets_rr`: the processed rows, the
two knockout counters, and the positions (in the processed prefix) of the
first-encountered finalist and semifinalist pairings. -/
structure RRState (P : Type) where
  out : List (Match P)
  fc : ℕ
  sc : ℕ
  savedF : ℕ
  savedS : ℕ

/-- One iteration of the classification loop of `reconstruct_brackets_rr`
(prep_data.py, lines 392-452), following the if/elif chain literally. -/
def rrStep {P : Type} [DecidableEq P] (gsl fl : List P) (st : RRState P)
    (row : Match P) : RRState P :=
  -- Identify group stage matches
  if row.player1 ∈ gsl ∨ row.player2 ∈ gsl then
    {st with out := st.out ++ [setGroup row]}
  -- Identify finals
  else if row.player1 ∈ fl ∧ row.player2 ∈ fl then
    if st.fc = 1 then
      ⟨st.out ++ [{row with round := some "Final", rnum := 3}],
        st.fc - 1, st.sc, st.out.length, st.savedS⟩
    else
      {st with out :=
        reclass st.out st.savedF ++ [{row with round := some "Final", rnum := 3}]}
  -- Identify semi-finals
  else if (row.player1 ∈ fl ∨ row.player2 ∈ fl) ∧ row.round = none then
    if st.sc = 2 then
      ⟨st.out ++ [{row with round := some "Semi-final", rnum := 2}],
        st.fc, st.sc - 1, st.savedF, st.out.length⟩
    else if st.sc = 1 then
      ⟨st.out ++ [{row with round := some "Semi-final", rnum := 2}],
        st.fc, st.sc - 1, st.savedF, st.savedS⟩
    else
      {st with out :=
        reclass st.out st.savedS ++ [{row with round := some "Semi-final", rnum := 2}]}
  -- Fallback: semi-finalists who only played group matches
  else
    {st with out := st.out ++ [setGroup row]}

/-- Model of `reconstruct_brackets_rr` (prep_data.py, lines 332-452) for the rows of
one tournament-instance (the source groups by the tournament-start key and
runs this loop per group). -/
def reconstruct_brackets_rr {P : Type} [DecidableEq P] (rows : List (Match P)) :
    List (Match P) :=
  (rows.foldl (rrStep (rr_group_losers rows) (rr_finalists rows)) ⟨[], 1, 2, 0, 0⟩).out

/-- The "both participants are finalists and none is a group-stage loser"
category: the rows classified by the finals branch of `rrStep`. -/
def rrIsF {P : Type} [DecidableEq P] (gsl fl : List P) (r : Match P) : Prop :=
  ¬(r.player1 ∈ gsl ∨ r.player2 ∈ gsl) ∧ (r.player1 ∈ fl ∧ r.player2 ∈ fl)

instance {P : Type} [DecidableEq P] (gsl fl : List P) (r : Match P) :
    Decidable (rrIsF gsl fl r) := by
  unfold rrIsF
  infer_instance

/-- A row that carries one of the three round labels with its round number. -/
def GoodRow {P : Type} (r : Match P) : Prop :=
  (r.round = some "Group Stage" ∧ r.rnum = 1) ∨
    (r.round = some "Semi-final" ∧ r.rnum = 2) ∨
    (r.round = some "Final" ∧ r.rnum = 3)

def isFinalRow {P : Type} (r : Match P) : Bool := r.round == some "Final"

/-- The loop invariant of `reconstruct_brackets_rr`'s classification loop:
`nF` is the number of finals-branch rows processed so far.  All processed
rows carry a good label; the final counter mirrors whether a finals pairing
was seen; exactly `min nF 1` processed rows are labeled "Final"; the saved
positions point at rows with the expected labels. -/
structure RRInv {P : Type} (st : RRState P) (nF : ℕ) : Prop where
  good : ∀ r ∈ st.out, GoodRow r
  fc_eq : st.fc = if nF = 0 then 1 else 0
  sc_le : st.sc ≤ 2
  fcount : st.out.countP isFinalRow = min nF 1
  savedF_ok : nF = 1 → ∃ h : st.savedF < st.out.length,
      (st.out.get ⟨st.savedF, h⟩).round = some "Final"
  savedS_ok : st.sc < 2 → ∃ h : st.savedS < st.out.length,
      ((st.out.get ⟨st.savedS, h⟩).round = some "Semi-final" ∨
        (st.out.get ⟨st.savedS, h⟩).round = some "Group Stage")

/-- The unordered pair of participants of a row: the only data of a row
that `reconstruct_brackets_rr` reads (the classification depends on
`row[4]` and `row[5]` symmetrically, plus the round sentinel, which is
`none` for every unprocessed record). -/
def pairShape {P : Type} (r : Match P) : Sym2 P := Sym2.mk (r.player1, r.player2)

/-- The unordered-pair shapes of the canonical 15-match round-robin
instance over `Fin 8` (WTA-Finals format): two groups {0,1,2,3} and
{4,5,6,7} playing full round robins, the cross-group semifinals 0-4 and
1-5, and the final.  `b` chooses which semifinal winners meet in the final:
`true` puts the two finalists (0 and 1) in the same group, so they meet
twice; `false` pairs 0 with 5, who meet only in the final.  Up to the group
symmetry, every standard instance is an injective relabeling of one of the
two. -/

def rrShapeFin (b : Bool) : List (Sym2 (Fin 8)) :=
  [Sym2.mk (0, 1), Sym2.mk (0, 2), Sym2.mk (0, 3), Sym2.mk (1, 2), Sym2.mk (1, 3),
   Sym2.mk (2, 3),
   Sym2.mk (4, 5), Sym2.mk (4, 6), Sym2.mk (4, 7), Sym2.mk (5, 6), Sym2.mk (5, 7),
   Sym2.mk (6, 7),
   Sym2.mk (0, 4), Sym2.mk (1, 5),
   if b then Sym2.mk (0, 1) else Sym2.mk (0, 5)]

/-- Participation counts of the canonical instance. -/
def cntFin (b : Bool) (i : Fin 8) : ℕ := (rrShapeFin b).countP fun e => decide (i ∈ e)

/-- A valid round-robin tournament-instance: up to an injective renaming of
the 8 players and a reordering of the records, the multiset of participant
pairs is that of the canonical instance `rrShapeFin b` for one of the two
final configurations. -/
def ValidRRInstance (ms : List (Match String)) : Prop :=
  ∃ p : Fin 8 → String, Function.Injective p ∧ ∃ b : Bool,
    (ms.map pairShape).Perm ((rrShapeFin b).map (Sym2.map p))

/-- The finals-branch condition on an unordered participant pair
(well-defined because the condition is symmetric in the two players). -/
def rrIsFShape {Q : Type} [DecidableEq Q] (gsl fl : List Q) : Sym2 Q → Bool :=
  Sym2.lift ⟨fun a c => decide (¬(a ∈ gsl ∨ c ∈ gsl) ∧ (a ∈ fl ∧ c ∈ fl)),
    fun a c => by
      refine decide_eq_decide.mpr ?_
      constructor <;> rintro ⟨h1, h2, h3⟩ <;>
        exact ⟨fun h => h1 h.symm, h3, h2⟩⟩

/-- The finals-branch condition of the canonical instance, phrased on the
canonical participation counts. -/
def rrIsFFinPred (b : Bool) : Sym2 (Fin 8) → Bool :=
  Sym2.lift ⟨fun i j =>
    decide (¬(cntFin b i ≤ 3 ∨ cntFin b j ≤ 3) ∧ (cntFin b i = 5 ∧ cntFin b j = 5)),
    fun i j => by
      refine decide_eq_decide.mpr ?_
      constructor <;> rintro ⟨h1, h2, h3⟩ <;>
        exact ⟨fun h => h1 h.symm, h3, h2⟩⟩

/-- A concrete valid round-robin instance (the `b = false` canonical shape
with players P0..P7). -/
def rrInstanceW : List (Match String) :=
  [mkBracketRow "P0" "P1" "P0" "P1", mkBracketRow "P0" "P2" "P0" "P2",
   mkBracketRow "P0" "P3" "P0" "P3", mkBracketRow "P1" "P2" "P1" "P2",
   mkBracketRow "P1" "P3" "P1" "P3", mkBracketRow "P2" "P3" "P2" "P3",
   mkBracketRow "P4" "P5" "P4" "P5", mkBracketRow "P4" "P6" "P4" "P6",
   mkBracketRow "P4" "P7" "P4" "P7", mkBracketRow "P5" "P6" "P5" "P6",
   mkBracketRow "P5" "P7" "P5" "P7", mkBracketRow "P6" "P7" "P6" "P7",
   mkBracketRow "P0" "P4" "P0" "P4", mkBracketRow "P1" "P5" "P1" "P5",
   mkBracketRow "P0" "P5" "P0" "P5"]

theorem get_unique_players_nodup {P : Type} [DecidableEq P] (data : List (Match P)) :
    (get_unique_players data).Nodup := List.nodup_dedup _

/-- Whatever `wbwLoop` returns is one of the iterates of `wbwStep`. -/
theorem wbwLoop_eq_iterate {P : Type} [DecidableEq P] (n : ℕ) (players : List P)
    (bb : P → List P) (ε : ℚ) :
    ∀ (fuel : ℕ) (w : P → ℚ), ∃ j, j ≤ fuel ∧
      wbwLoop n players bb ε fuel w = (wbwStep n players bb)^[j] w := by
  intro fuel
  induction fuel with
  | zero => exact fun w => ⟨0, le_rfl, rfl⟩
  | succ fuel ih =>
    intro w
    rw [wbwLoop]
    split
    · exact ⟨1, by omega, rfl⟩
    · obtain ⟨j, hj, hres⟩ := ih (wbwStep n players bb w)
      exact ⟨j + 1, by omega, by rw [hres, Function.iterate_succ_apply]⟩

theorem wbwShareStep_apply {P : Type} [DecidableEq P] (share : ℚ) :
    ∀ (victors : List P) (s : P → ℚ) (x : P),
      wbwShareStep share s victors x = s x + (victors.count x : ℚ) * share := by
  intro victors
  induction victors with
  | nil => intro s x; simp [wbwShareStep]
  | cons v vs ih =>
    intro s x
    have : wbwShareStep share s (v :: vs) =
        wbwShareStep share (Function.update s v (s v + share)) vs := rfl
    rw [this, ih]
    rcases eq_or_ne x v with h | h
    · subst h
      rw [Function.update_same, List.count_cons_self]
      push_cast
      ring
    · rw [Function.update_noteq h, List.count_cons_of_ne h]

theorem wbwSharesLoop_fst {P : Type} [DecidableEq P] (bb : P → List P) :
    ∀ (players : List P), players.Nodup →
      ∀ (s₀ w₀ w : P → ℚ), (∀ k ∈ players, w₀ k = w k) →
      ∀ x : P, (wbwSharesLoop bb players (s₀, w₀)).1 x = s₀ x + sharesFormula bb players w x := by
  intro players
  induction players with
  | nil => intro _ s₀ w₀ w _ x; simp [wbwSharesLoop, sharesFormula]
  | cons k rest ih =>
    intro hnd s₀ w₀ w hw x
    rw [List.nodup_cons] at hnd
    have hk : w₀ k = w k := hw k (by simp)
    have hrest : ∀ k' ∈ rest, w₀ k' = w k' := fun k' hk' => hw k' (by simp [hk'])
    by_cases hv : (bb k).length ≠ 0
    · have hstep : wbwSharesLoop bb (k :: rest) (s₀, w₀) =
          wbwSharesLoop bb rest
            (wbwShareStep (w₀ k / ((bb k).length : ℚ)) s₀ (bb k), w₀) := by
        simp only [wbwSharesLoop, List.foldl_cons, if_pos hv]
      rw [hstep, ih hnd.2 _ _ w hrest, wbwShareStep_apply]
      simp only [sharesFormula, List.map_cons, List.sum_cons, if_pos hv, hk]
      ring
    · have hstep : wbwSharesLoop bb (k :: rest) (s₀, w₀) =
          wbwSharesLoop bb rest (s₀, Function.update w₀ k (w₀ k + w₀ k)) := by
        simp only [wbwSharesLoop, List.foldl_cons, if_neg hv]
      have hrest' : ∀ k' ∈ rest, Function.update w₀ k (w₀ k + w₀ k) k' = w k' := by
        intro k' hk'
        have hne : k' ≠ k := fun h => hnd.1 (h ▸ hk')
        rw [Function.update_noteq hne, hrest k' hk']
      rw [hstep, ih hnd.2 _ _ w hrest']
      simp only [sharesFormula, List.map_cons, List.sum_cons, if_neg hv]
      ring

theorem wbwSharesLoopNB_fst {P : Type} [DecidableEq P] (bb : P → List P) :
    ∀ (players : List P) (s₀ w : P → ℚ) (x : P),
      (wbwSharesLoopNB bb players (s₀, w)).1 x = s₀ x + sharesFormula bb players w x := by
  intro players
  induction players with
  | nil => intro s₀ w x; simp [wbwSharesLoopNB, sharesFormula]
  | cons k rest ih =>
    intro s₀ w x
    by_cases hv : (bb k).length ≠ 0
    · have hstep : wbwSharesLoopNB bb (k :: rest) (s₀, w) =
          wbwSharesLoopNB bb rest
            (wbwShareStep (w k / ((bb k).length : ℚ)) s₀ (bb k), w) := by
        simp only [wbwSharesLoopNB, List.foldl_cons, if_pos hv]
      rw [hstep, ih, wbwShareStep_apply]
      simp only [sharesFormula, List.map_cons, List.sum_cons, if_pos hv]
      ring
    · have hstep : wbwSharesLoopNB bb (k :: rest) (s₀, w) =
          wbwSharesLoopNB bb rest (s₀, w) := by
        simp only [wbwSharesLoopNB, List.foldl_cons, if_neg hv]
      rw [hstep, ih]
      simp only [sharesFormula, List.map_cons, List.sum_cons, if_neg hv]
      ring

theorem wbwStep_eq_formula {P : Type} [DecidableEq P] (n : ℕ) (players : List P)
    (hnd : players.Nodup) (bb : P → List P) (w : P → ℚ) :
    wbwStep n players bb w = fun k =>
      sharesFormula bb players w k * 0.85 + 0.15 / (n : ℚ) := by
  funext k
  unfold wbwStep
  rw [wbwSharesLoop_fst bb players hnd _ w w (fun _ _ => rfl) k]
  ring

theorem wbwStepNB_eq_formula {P : Type} [DecidableEq P] (n : ℕ) (players : List P)
    (bb : P → List P) (w : P → ℚ) :
    wbwStepNB n players bb w = fun k =>
      sharesFormula bb players w k * 0.85 + 0.15 / (n : ℚ) := by
  funext k
  unfold wbwStepNB
  rw [wbwSharesLoopNB_fst bb players _ w k]
  ring

theorem wbwStep_eq_NB {P : Type} [DecidableEq P] (n : ℕ) (players : List P)
    (hnd : players.Nodup) (bb : P → List P) (w : P → ℚ) :
    wbwStep n players bb w = wbwStepNB n players bb w := by
  rw [wbwStep_eq_formula n players hnd, wbwStepNB_eq_formula]

theorem wbwLoop_eq_NB {P : Type} [DecidableEq P] (n : ℕ) (players : List P)
    (hnd : players.Nodup) (bb : P → List P) (ε : ℚ) :
    ∀ (fuel : ℕ) (w : P → ℚ),
      wbwLoop n players bb ε fuel w = wbwLoopNB n players bb ε fuel w := by
  intro fuel
  induction fuel with
  | zero => intro w; rfl
  | succ fuel ih =>
    intro w
    rw [wbwLoop, wbwLoopNB, wbwStep_eq_NB n players hnd]
    split
    · rfl
    · exact ih _

theorem sharesFormula_sum {P : Type} [DecidableEq P] (bb : P → List P)
    (players : List P) (hnd : players.Nodup)
    (hsub : ∀ k ∈ players, ∀ v ∈ bb k, v ∈ players) (w : P → ℚ) :
    ∑ x in players.toFinset, sharesFormula bb players w x =
      ∑ k in players.toFinset, (if (bb k).length ≠ 0 then w k else 0) := by
  have hS : ∀ f : P → ℚ, (players.map f).sum = ∑ x in players.toFinset, f x :=
    fun f => (List.sum_toFinset f hnd).symm
  calc ∑ x in players.toFinset, sharesFormula bb players w x
      = ∑ x in players.toFinset, ∑ k in players.toFinset,
          (if (bb k).length ≠ 0 then ((bb k).count x : ℚ) * (w k / ((bb k).length : ℚ))
           else 0) := by
        refine Finset.sum_congr rfl fun x _ => ?_
        unfold sharesFormula
        rw [hS]
    _ = ∑ k in players.toFinset, ∑ x in players.toFinset,
          (if (bb k).length ≠ 0 then ((bb k).count x : ℚ) * (w k / ((bb k).length : ℚ))
           else 0) := Finset.sum_comm
    _ = ∑ k in players.toFinset, (if (bb k).length ≠ 0 then w k else 0) := by
        refine Finset.sum_congr rfl fun k hk => ?_
        by_cases hlen : (bb k).length ≠ 0
        · simp only [if_pos hlen]
          rw [← Finset.sum_mul]
          have hsubF : (bb k).toFinset ⊆ players.toFinset := by
            intro v hv
            rw [List.mem_toFinset] at hv ⊢
            exact hsub k (List.mem_toFinset.mp hk) v hv
          have h0 : ∀ x ∈ players.toFinset, x ∉ (bb k).toFinset →
              ((bb k).count x : ℚ) = 0 := by
            intro x _ hx
            rw [List.mem_toFinset] at hx
            simp [List.count_eq_zero.mpr hx]
          rw [← Finset.sum_subset hsubF h0]
          have hcnt : (∑ x in (bb k).toFinset, ((bb k).count x : ℚ)) =
              ((bb k).length : ℚ) := by
            rw [← Nat.cast_sum, List.sum_toFinset_count_eq_length]
          rw [hcnt, ← mul_div_assoc, mul_div_cancel_left₀]
          exact Nat.cast_ne_zero.mpr hlen
        · simp only [if_neg hlen]
          exact Finset.sum_const_zero

theorem wbwStep_sum {P : Type} [DecidableEq P] (players : List P) (hnd : players.Nodup)
    (bb : P → List P)
    (hsub : ∀ k ∈ players, ∀ v ∈ bb k, v ∈ players)
    (hlost : ∀ k ∈ players, bb k ≠ [])
    (hn : players.length ≠ 0) (w : P → ℚ) :
    (players.map (wbwStep players.length players bb w)).sum =
      0.85 * (players.map w).sum + 0.15 := by
  have hS : ∀ f : P → ℚ, (players.map f).sum = ∑ x in players.toFinset, f x :=
    fun f => (List.sum_toFinset f hnd).symm
  rw [hS, hS, wbwStep_eq_formula _ players hnd]
  rw [Finset.sum_add_distrib, Finset.sum_const, ← Finset.sum_mul]
  rw [sharesFormula_sum bb players hnd hsub]
  have hnq : ((players.length : ℕ) : ℚ) ≠ 0 := Nat.cast_ne_zero.mpr hn
  have hcard : players.toFinset.card = players.length := List.toFinset_card_of_nodup hnd
  have hift : ∀ k ∈ players.toFinset, (if (bb k).length ≠ 0 then w k else 0) = w k := by
    intro k hk
    rw [if_pos]
    exact fun h0 => hlost k (List.mem_toFinset.mp hk) (List.eq_nil_of_length_eq_zero h0)
  rw [Finset.sum_congr rfl hift, hcard, nsmul_eq_mul, mul_div_cancel₀ _ hnq]
  ring

theorem get_unique_players_ne_nil {P : Type} [DecidableEq P] (data : List (Match P))
    (hne : data ≠ []) : get_unique_players data ≠ [] := by
  obtain ⟨m, rest, rfl⟩ := List.exists_cons_of_ne_nil hne
  intro h
  have : m.player1 ∈ get_unique_players (m :: rest) := by
    unfold get_unique_players
    rw [List.mem_dedup]
    simp
  rw [h] at this
  exact List.not_mem_nil _ this

theorem winner_mem_players {P : Type} [DecidableEq P] (data : List (Match P))
    (hwf : ∀ m ∈ data, m.winner = m.player1 ∨ m.winner = m.player2) :
    ∀ m ∈ data, m.winner ∈ get_unique_players data := by
  intro m hm
  unfold get_unique_players
  rw [List.mem_dedup, List.mem_append]
  rcases hwf m hm with h | h
  · exact Or.inl (List.mem_map.mpr ⟨m, hm, h.symm⟩)
  · exact Or.inr (List.mem_map.mpr ⟨m, hm, h.symm⟩)

theorem beaten_by_subset_players {P : Type} [DecidableEq P] (data : List (Match P))
    (hwf : ∀ m ∈ data, m.winner = m.player1 ∨ m.winner = m.player2) :
    ∀ k, ∀ v ∈ beaten_by data k, v ∈ get_unique_players data := by
  intro k v hv
  unfold beaten_by at hv
  obtain ⟨m, hm, rfl⟩ := List.mem_map.mp hv
  exact winner_mem_players data hwf m (List.mem_filter.mp hm).1

/-- C8: on every input and for every stopping threshold, `calc_wbw` with the
"never lost" self-increment branch removed returns exactly the same sorted
(player, score) list as the original `calc_wbw`: the self-increment mutates a
mapping that is wholly rebuilt from the shares at the end of the iteration,
so it is observably a no-op. -/
theorem calc_wbw_nobranch_equiv (data : List (Match String)) (ε : ℚ) :
    calc_wbw data ε = calc_wbw_nobranch data ε := by
  simp only [calc_wbw, calc_wbw_nobranch]
  rw [wbwLoop_eq_NB _ _ (get_unique_players_nodup data)]

/-- C1 (amended): for every non-empty well-formed set of match records in
which every player has lost at least one match, the sum of all WBW scores is
exactly 1 after every completed iteration (and initially).  Without the
hypothesis that every player lost at least once the claim is false, because
an undefeated player's score is not redistributed (see
`wbw_sum_counterexample`). -/
theorem wbw_scores_sum_one (data : List (Match String))
    (hne : data ≠ [])
    (hwf : ∀ m ∈ data, m.winner = m.player1 ∨ m.winner = m.player2)
    (hlost : ∀ p ∈ get_unique_players data, beaten_by data p ≠ [])
    (i : ℕ) :
    ((get_unique_players data).map (wbwIter data i)).sum = 1 := by
  have hnd : (get_unique_players data).Nodup := List.nodup_dedup _
  have hplayers : get_unique_players data ≠ [] := get_unique_players_ne_nil data hne
  have hn : (get_unique_players data).length ≠ 0 :=
    fun h => hplayers (List.eq_nil_of_length_eq_zero h)
  have hnq : (((get_unique_players data).length : ℕ) : ℚ) ≠ 0 := Nat.cast_ne_zero.mpr hn
  induction i with
  | zero =>
    unfold wbwIter
    simp only [Function.iterate_zero, id_eq]
    rw [List.map_const', List.sum_replicate, nsmul_eq_mul]
    field_simp
  | succ i ih =>
    have hstep : wbwIter data (i + 1) =
        wbwStep (get_unique_players data).length (get_unique_players data)
          (beaten_by data) (wbwIter data i) := by
      unfold wbwIter
      rw [Function.iterate_succ_apply']
    rw [hstep,
      wbwStep_sum _ hnd _ (fun k _ v hv => beaten_by_subset_players data hwf k v hv)
        hlost hn, ih]
    norm_num

/-- C1 counterexample: after the first completed WBW iteration on a single
match (A beats B), the scores sum to 23/40 = 0.575, not 1: A never lost, so
A's score mass is not redistributed and the damping step shrinks the total. -/
theorem wbw_sum_counterexample :
    ((get_unique_players wbwCounterData).map (wbwIter wbwCounterData 1)).sum = 23 / 40 ∧
      (23 / 40 : ℚ) ≠ 1 := by
  constructor
  · have hd : (["A", "B"] : List String).dedup = ["A", "B"] := by decide
    have h1 : ("B" : String) ≠ "A" := by decide
    have h2 : ("A" : String) ≠ "B" := by decide
    norm_num [wbwCounterData, wbwIter, get_unique_players, find_winner_loser, beaten_by,
      wbwStep, wbwSharesLoop, wbwShareStep, Function.update_apply, hd, h1, h2,
      List.filter_cons, List.filter_nil]
  · norm_num

/-- Witness for `wbw_scores_sum_one` at a concrete input. -/
theorem wbw_scores_sum_one_witness :
    (wbwCycleData ≠ [] ∧
      (∀ m ∈ wbwCycleData, m.winner = m.player1 ∨ m.winner = m.player2) ∧
      (∀ p ∈ get_unique_players wbwCycleData, beaten_by wbwCycleData p ≠ [])) ∧
    ((get_unique_players wbwCycleData).map (wbwIter wbwCycleData 1)).sum = 1 :=
  ⟨⟨by decide, by decide, by decide⟩,
    wbw_scores_sum_one wbwCycleData (by decide) (by decide) (by decide) 1⟩

theorem sharesFormula_nonneg {P : Type} [DecidableEq P] (bb : P → List P)
    (players : List P) (w : P → ℚ) (hw : ∀ k, 0 ≤ w k) (x : P) :
    0 ≤ sharesFormula bb players w x := by
  apply List.sum_nonneg
  intro q hq
  obtain ⟨k, _, rfl⟩ := List.mem_map.mp hq
  by_cases hlen : (bb k).length ≠ 0
  · rw [if_pos hlen]
    exact mul_nonneg (Nat.cast_nonneg _) (div_nonneg (hw k) (Nat.cast_nonneg _))
  · rw [if_neg hlen]

/-- All WBW iterates are non-negative everywhere. -/
theorem wbwIter_nonneg {P : Type} [DecidableEq P] (data : List (Match P)) :
    ∀ (j : ℕ) (x : P), 0 ≤ wbwIter data j x := by
  intro j
  induction j with
  | zero =>
    intro x
    unfold wbwIter
    simp only [Function.iterate_zero, id_eq]
    positivity
  | succ j ih =>
    intro x
    have hstep : wbwIter data (j + 1) =
        wbwStep (get_unique_players data).length (get_unique_players data)
          (beaten_by data) (wbwIter data j) := by
      unfold wbwIter
      rw [Function.iterate_succ_apply']
    rw [hstep, wbwStep_eq_formula _ _ (get_unique_players_nodup data)]
    have hf := sharesFormula_nonneg (beaten_by data) (get_unique_players data)
      (wbwIter data j) ih x
    have h1 : (0 : ℚ) ≤ sharesFormula (beaten_by data) (get_unique_players data)
        (wbwIter data j) x * 0.85 := by
      apply mul_nonneg hf
      norm_num
    have h2 : (0 : ℚ) ≤ 0.15 / (((get_unique_players data).length : ℕ) : ℚ) :=
      div_nonneg (by norm_num) (Nat.cast_nonneg _)
    exact add_nonneg h1 h2

/-- C9: for every non-empty set of match records, after every completed WBW
iteration every player's score is at least 0.15/N (N the number of distinct
players), in particular strictly positive: the new score is 0.85 times a
non-negative received share plus 0.15/N. -/
theorem wbw_score_lower_bound (data : List (Match String)) (hne : data ≠ [])
    (i : ℕ) (p : String) (_hp : p ∈ get_unique_players data) :
    0 < wbwIter data (i + 1) p ∧
      0.15 / ((get_unique_players data).length : ℚ) ≤ wbwIter data (i + 1) p := by
  have hplayers : get_unique_players data ≠ [] := get_unique_players_ne_nil data hne
  have hnpos : 0 < (get_unique_players data).length := List.length_pos.mpr hplayers
  have hdpos : (0 : ℚ) < 0.15 / ((get_unique_players data).length : ℚ) := by
    apply div_pos (by norm_num)
    exact_mod_cast hnpos
  have hstep : wbwIter data (i + 1) =
      wbwStep (get_unique_players data).length (get_unique_players data)
        (beaten_by data) (wbwIter data i) := by
    unfold wbwIter
    rw [Function.iterate_succ_apply']
  have hbound : 0.15 / ((get_unique_players data).length : ℚ) ≤ wbwIter data (i + 1) p := by
    rw [hstep, wbwStep_eq_formula _ _ (get_unique_players_nodup data)]
    have hf := sharesFormula_nonneg (beaten_by data) (get_unique_players data)
      (wbwIter data i) (wbwIter_nonneg data i) p
    nlinarith
  exact ⟨lt_of_lt_of_le hdpos hbound, hbound⟩

/-- Witness for `wbw_score_lower_bound` at a concrete input. -/
theorem wbw_score_lower_bound_witness :
    (wbwCounterData ≠ [] ∧ "A" ∈ get_unique_players wbwCounterData) ∧
    (0 < wbwIter wbwCounterData 1 "A" ∧
      0.15 / ((get_unique_players wbwCounterData).length : ℚ) ≤
        wbwIter wbwCounterData 1 "A") :=
  ⟨⟨by decide, by decide⟩, wbw_score_lower_bound wbwCounterData (by decide) 0 "A" (by decide)⟩

theorem pymaxChecked_ok {l : List ℚ} (h : l ≠ []) :
    pymaxChecked l = Except.ok (pymax l) := by
  obtain ⟨a, l', rfl⟩ := List.exists_cons_of_ne_nil h
  rfl

theorem pyminChecked_ok {l : List ℚ} (h : l ≠ []) :
    pyminChecked l = Except.ok (pymin l) := by
  obtain ⟨a, l', rfl⟩ := List.exists_cons_of_ne_nil h
  rfl

/-- The share-distribution loop never raises a division error: the division
computing `share_of_score` is reached only under the guard
`not len(victors) == 0`, so the checked loop always succeeds and agrees with
the unchecked one. -/
theorem wbwSharesLoopChecked_ok {P : Type} [DecidableEq P] (bb : P → List P) :
    ∀ (players : List P) (acc : (P → ℚ) × (P → ℚ)),
      wbwSharesLoopChecked bb players acc = Except.ok (wbwSharesLoop bb players acc) := by
  intro players
  induction players with
  | nil => intro acc; rfl
  | cons k rest ih =>
    intro acc
    by_cases hv : (bb k).length ≠ 0
    · have hstep : wbwSharesLoopChecked bb (k :: rest) acc =
          wbwSharesLoopChecked bb rest
            (wbwShareStep (acc.2 k / ((bb k).length : ℚ)) acc.1 (bb k), acc.2) := by
        simp only [wbwSharesLoopChecked, List.foldlM_cons, if_pos hv, if_neg hv]
        rfl
      have hstep' : wbwSharesLoop bb (k :: rest) acc =
          wbwSharesLoop bb rest
            (wbwShareStep (acc.2 k / ((bb k).length : ℚ)) acc.1 (bb k), acc.2) := by
        simp only [wbwSharesLoop, List.foldl_cons, if_pos hv]
      rw [hstep, hstep', ih]
    · have hstep : wbwSharesLoopChecked bb (k :: rest) acc =
          wbwSharesLoopChecked bb rest
            (acc.1, Function.update acc.2 k (acc.2 k + acc.2 k)) := by
        simp only [wbwSharesLoopChecked, List.foldlM_cons, if_neg hv]
        rfl
      have hstep' : wbwSharesLoop bb (k :: rest) acc =
          wbwSharesLoop bb rest
            (acc.1, Function.update acc.2 k (acc.2 k + acc.2 k)) := by
        simp only [wbwSharesLoop, List.foldl_cons, if_neg hv]
      rw [hstep, hstep', ih]

theorem wbwLoopChecked_ok {P : Type} [DecidableEq P] (n : ℕ) (players : List P)
    (bb : P → List P) (ε : ℚ) (hp : players ≠ []) :
    ∀ (fuel : ℕ) (w : P → ℚ), ∃ r, wbwLoopChecked n players bb ε fuel w = Except.ok r := by
  intro fuel
  induction fuel with
  | zero => exact fun w => ⟨w, rfl⟩
  | succ fuel ih =>
    intro w
    have hmap : ∀ v : P → ℚ, players.map v ≠ [] := by
      intro v h
      exact hp (List.map_eq_nil_iff.mp h)
    have hmax : ∀ v : P → ℚ, pymaxChecked (players.map v) =
        Except.ok (pymax (players.map v)) := fun v => pymaxChecked_ok (hmap v)
    have hmin : ∀ v : P → ℚ, pyminChecked (players.map v) =
        Except.ok (pymin (players.map v)) := fun v => pyminChecked_ok (hmap v)
    have hbind : ∀ {α β : Type} (a : α) (f : α → Except String β),
        (Except.ok a >>= f) = f a := fun a f => rfl
    rw [wbwLoopChecked]
    simp only [hmax, hmin, wbwSharesLoopChecked_ok, hbind]
    split
    · exact ⟨_, rfl⟩
    · exact ih _

theorem wbwLoopChecked_nil_fails {P : Type} [DecidableEq P] (n : ℕ) (bb : P → List P)
    (ε : ℚ) (fuel : ℕ) (w : P → ℚ) :
    wbwLoopChecked n ([] : List P) bb ε (fuel + 1) w =
      Except.error "ValueError: max() arg is an empty sequence" := by
  rw [wbwLoopChecked]
  rfl

/-- C10: `calc_wbw` applied to an empty list of match records does not return
an empty ranking but fails with Python's `ValueError` from `max()` over the
empty score collection; on every non-empty input it succeeds, so non-empty
input is an unstated precondition. -/
theorem calc_wbw_empty_input (ε : ℚ) :
    calc_wbwChecked ([] : List (Match String)) ε =
      Except.error "ValueError: max() arg is an empty sequence" ∧
    ∀ data : List (Match String), data ≠ [] →
      ∃ r, calc_wbwChecked data ε = Except.ok r := by
  constructor
  · have h1000 : (1000 : ℕ) = 999 + 1 := rfl
    simp only [calc_wbwChecked, get_unique_players, List.map_nil, List.nil_append,
      List.dedup_nil, List.length_nil, h1000, wbwLoopChecked_nil_fails]
    rfl
  · intro data hne
    have hp : get_unique_players data ≠ [] := get_unique_players_ne_nil data hne
    obtain ⟨r, hr⟩ := wbwLoopChecked_ok (get_unique_players data).length
      (get_unique_players data) (beaten_by data) ε hp 1000
      (fun _ => 1 / ((get_unique_players data).length : ℚ))
    refine ⟨sortDescBy ((get_unique_players data).map fun p => (p, r p)), ?_⟩
    simp only [calc_wbwChecked]
    rw [hr]
    rfl

/-- Witness for the non-empty success half of `calc_wbw_empty_input`. -/
theorem calc_wbw_empty_input_witness :
    wbwCounterData ≠ [] ∧
      ∃ r, calc_wbwChecked wbwCounterData (1 / 10 ^ 11) = Except.ok r :=
  ⟨by decide, (calc_wbw_empty_input (1 / 10 ^ 11)).2 wbwCounterData (by decide)⟩

/-- C6 counterexample: `calc_wdl` applied to a record whose round number is
the zero sentinel does raise a division error (the loser update divides by
`row[14]` with no guard), refuting the claim that this division is
explicitly guarded. -/
theorem calc_wdl_zero_round_fails :
    calc_wdl [wdlZeroRow] = Except.error "ZeroDivisionError" := rfl

/-- C6 (amended): `calc_wbw` never divides a score by an empty beaten-by
list (the `len(victors) == 0` guard makes the checked share loop total), but
`calc_wdl` is not guarded: on a record whose round number is the zero
sentinel it raises `ZeroDivisionError`. -/
theorem division_guard_status :
    (∀ (bb : String → List String) (players : List String)
        (acc : (String → ℚ) × (String → ℚ)),
        wbwSharesLoopChecked bb players acc = Except.ok (wbwSharesLoop bb players acc)) ∧
      calc_wdl [wdlZeroRow] = Except.error "ZeroDivisionError" :=
  ⟨fun bb players acc => wbwSharesLoopChecked_ok bb players acc, rfl⟩

theorem sum_map_update_add_one {c : String → ℕ} :
    ∀ (players : List String), players.Nodup → ∀ a ∈ players,
      (players.map (Function.update c a (c a + 1))).sum = (players.map c).sum + 1 := by
  intro players
  induction players with
  | nil => intro _ a ha; exact absurd ha (List.not_mem_nil a)
  | cons q rest ih =>
    intro hnd a ha
    rw [List.nodup_cons] at hnd
    rcases List.mem_cons.mp ha with rfl | ha'
    · have hrest : ∀ x ∈ rest, Function.update c a (c a + 1) x = c x := by
        intro x hx
        have hxa : x ≠ a := by
          intro h
          subst h
          exact hnd.1 hx
        exact Function.update_noteq hxa _ _
      simp only [List.map_cons, List.sum_cons, Function.update_same,
        List.map_congr_left hrest]
      omega
    · have hq : Function.update c a (c a + 1) q = c q := by
        have hqa : q ≠ a := by
          intro h
          subst h
          exact hnd.1 ha'
        exact Function.update_noteq hqa _ _
      simp only [List.map_cons, List.sum_cons, hq, ih hnd.2 a ha']
      omega

/-- Sum of the Winners Win counters over the (fixed) player universe:
each row whose winner is a known player contributes exactly 1. -/
theorem ww_fold_sum (players : List String) (hnd : players.Nodup) :
    ∀ (data : List (Match String)) (c₀ : String → ℕ),
      (players.map
        (data.foldl
          (fun c row =>
            if row.winner ∈ players then
              Function.update c row.winner (c row.winner + 1)
            else c)
          c₀)).sum =
      (players.map c₀).sum + data.countP (fun row => row.winner ∈ players) := by
  intro data
  induction data with
  | nil => intro c₀; simp
  | cons row rest ih =>
    intro c₀
    rw [List.foldl_cons, List.countP_cons]
    by_cases hw : row.winner ∈ players
    · rw [if_pos hw, ih, sum_map_update_add_one players hnd row.winner hw]
      simp [hw]
      omega
    · rw [if_neg hw, ih]
      simp [hw]

theorem find_winner_loser_winner (r : RawMatch) :
    (find_winner_loser r).winner = (find_winner_loser r).player1 ∨
      (find_winner_loser r).winner = (find_winner_loser r).player2 := by
  unfold find_winner_loser
  by_cases h1 : r.comment ≠ "Completed"
  · rw [if_pos h1]
    by_cases h2 : r.player1 = pyReplace r.comment " Retired" ""
    · rw [if_pos h2]; simp
    · rw [if_neg h2]; simp
  · rw [if_neg h1]
    by_cases h3 : r.sets3 = (0, 0)
    · rw [if_pos h3]
      by_cases h4 : r.sets1.1 > r.sets1.2
      · rw [if_pos h4]; simp
      · rw [if_neg h4]; simp
    · rw [if_neg h3]
      by_cases h5 : 1 < ([r.sets1, r.sets2, r.sets3].countP fun s => s.2 < s.1)
      · rw [if_pos h5]; simp
      · rw [if_neg h5]; simp

/-- C2 (amended): all Winners Win scores are non-negative integers, and
their sum equals the **total** number of matches in the input — retirement
matches included, because `find_winner_loser` assigns a winner to
retirements too, so every row increments exactly one counter. -/
theorem calc_ww_sum (raws : List RawMatch) :
    (∀ s ∈ (calc_ww (raws.map find_winner_loser)).map Prod.snd, 0 ≤ (s : ℤ)) ∧
      ((calc_ww (raws.map find_winner_loser)).map Prod.snd).sum = raws.length := by
  constructor
  · intro s _
    exact Int.ofNat_nonneg s
  · set data := raws.map find_winner_loser with hdata
    have hnd : (get_unique_players data).Nodup := get_unique_players_nodup data
    have hperm : List.Perm (calc_ww data)
        ((get_unique_players data).map fun p => (p,
          (data.foldl
            (fun c row =>
              if row.winner ∈ get_unique_players data then
                Function.update c row.winner (c row.winner + 1)
              else c)
            (fun _ => 0)) p)) := by
      simp only [calc_ww]
      exact List.perm_insertionSort _ _
    have hsum := (hperm.map Prod.snd).sum_eq
    rw [hsum]
    have hwf : ∀ m ∈ data, m.winner = m.player1 ∨ m.winner = m.player2 := by
      intro m hm
      obtain ⟨r, _, rfl⟩ := List.mem_map.mp hm
      exact find_winner_loser_winner r
    have hall : data.countP (fun row => row.winner ∈ get_unique_players data) =
        data.length := by
      rw [List.countP_eq_length]
      intro m hm
      exact decide_eq_true (winner_mem_players data hwf m hm)
    have hmapmap : (((get_unique_players data).map fun p => (p,
        (data.foldl
          (fun c row =>
            if row.winner ∈ get_unique_players data then
              Function.update c row.winner (c row.winner + 1)
            else c)
          (fun _ => 0)) p)).map Prod.snd) =
        ((get_unique_players data).map
          (data.foldl
            (fun c row =>
              if row.winner ∈ get_unique_players data then
                Function.update c row.winner (c row.winner + 1)
              else c)
            (fun _ => 0))) := by
      rw [List.map_map]
      rfl
    rw [hmapmap, ww_fold_sum _ hnd data (fun _ => 0), hall]
    simp [hdata]

/-- C2 counterexample: on a single retirement match the Winners Win scores
sum to 1, while the number of completed (non-retirement) matches is 0, so
the sum does not equal the completed-match count. -/
theorem calc_ww_sum_counterexample :
    ((calc_ww [find_winner_loser retirementRaw]).map Prod.snd).sum = 1 ∧
      completedCount [find_winner_loser retirementRaw] = 0 ∧ (1 : ℕ) ≠ 0 := by
  decide

/-- Any unresolved row's winner is a member of the stage's winner list, so
the third-place-playoff guard `row[11] in current_stage_losers`
(prep_data.py, line 326) can never hold: the guard asks for the row's own
winner to be absent from the winners of the unresolved pool. -/
theorem playoff_guard_winner_mem {P : Type} [DecidableEq P] (rows : List (Match P))
    (row : Match P) (hrow : row ∈ rows) (hunres : row.round = none) :
    row.winner ∈ ((rows.filter fun r => r.round = none).map (·.winner)) :=
  List.mem_map.mpr ⟨row, List.mem_filter.mpr ⟨hrow, by simp [hunres]⟩, rfl⟩

/-- C4: on a single-elimination instance with a third-place playoff, the
code labels **no** record "Third-place Playoff": the playoff record (index
7) is labeled "Semi-final" with round number 2, not the final's round
number 3 (the real final, index 6, does get round number 3, and the
semifinal A-C at index 4 is even mislabeled "Final").  The detection branch
at prep_data.py line 326 is unreachable because the row's own winner always
appears in the unresolved winners list. -/
theorem third_place_playoff_not_labeled :
    ((reconstruct_brackets playoffInstance).countP
        fun r => r.round == some "Third-place Playoff") = 0 ∧
      ((reconstruct_brackets playoffInstance).getD 7 (mkBracketRow "" "" "" "")).round =
        some "Semi-final" ∧
      ((reconstruct_brackets playoffInstance).getD 7 (mkBracketRow "" "" "" "")).rnum = 2 ∧
      ((reconstruct_brackets playoffInstance).getD 6 (mkBracketRow "" "" "" "")).round =
        some "Final" ∧
      ((reconstruct_brackets playoffInstance).getD 6 (mkBracketRow "" "" "" "")).rnum = 3 := by
  decide

theorem algShape_stageRow {P : Type} [DecidableEq P] (k stage : ℕ) (ls ws : List P)
    (row : Match P) :
    algShape (stageRow k stage ls ws row) = shapeStage k stage ls ws (algShape row) := by
  unfold stageRow shapeStage
  by_cases h0 : row.round ≠ none
  · simp [algShape, h0]
  · by_cases h2 : stage = 2 ∧ (row.winner ∈ ls ∧ row.winner ∉ ws) ∧
      (row.loser ∈ ls ∧ row.loser ∉ ws)
    · by_cases h1 : row.loser ∈ ls ∧ row.loser ∉ ws <;> simp [algShape, h0, h1, h2]
    · by_cases h1 : row.loser ∈ ls ∧ row.loser ∉ ws
      · have h2' : ¬(stage = 2 ∧ row.winner ∈ ls ∧ row.winner ∉ ws) :=
          fun hc => h2 ⟨hc.1, hc.2, h1⟩
        simp [algShape, h0, h1, h2, h2']
      · simp [algShape, h0, h1, h2]

theorem shapeStage_congr {P : Type} [DecidableEq P] (k stage : ℕ)
    {ls ls' ws ws' : List P} (hl : ∀ x, x ∈ ls ↔ x ∈ ls')
    (hw : ∀ x, x ∈ ws ↔ x ∈ ws') (t : P × P × Option String × ℕ) :
    shapeStage k stage ls ws t = shapeStage k stage ls' ws' t := by
  unfold shapeStage
  simp only [hl, hw]

theorem filter_of_map {α β : Type} (f : α → β) (p : β → Bool) :
    ∀ l : List α, (l.map f).filter p = (l.filter fun x => p (f x)).map f := by
  intro l
  induction l with
  | nil => rfl
  | cons a l ih =>
    by_cases h : p (f a) <;> simp [h, ih]

/-- The unresolved loser list of a stage factors through the shapes. -/
theorem losers_eq_shape {P : Type} (l : List (Match P)) :
    ((l.filter fun r => r.round = none).map (·.loser)) =
      (((l.map algShape).filter fun t => t.2.2.1 = none).map fun t => t.2.1) := by
  rw [filter_of_map, List.map_map]
  rfl

theorem winners_eq_shape {P : Type} (l : List (Match P)) :
    ((l.filter fun r => r.round = none).map (·.winner)) =
      (((l.map algShape).filter fun t => t.2.2.1 = none).map fun t => t.1) := by
  rw [filter_of_map, List.map_map]
  rfl

theorem processStage_shape_perm {P : Type} [DecidableEq P] (k stage : ℕ)
    {ms ms' : List (Match P)} (h : (ms.map algShape).Perm (ms'.map algShape)) :
    ((processStage k stage ms).map algShape).Perm
      ((processStage k stage ms').map algShape) := by
  have hlp : ((ms.filter fun r => r.round = none).map (·.loser)).Perm
      ((ms'.filter fun r => r.round = none).map (·.loser)) := by
    rw [losers_eq_shape, losers_eq_shape]
    exact (h.filter _).map _
  have hwp : ((ms.filter fun r => r.round = none).map (·.winner)).Perm
      ((ms'.filter fun r => r.round = none).map (·.winner)) := by
    rw [winners_eq_shape, winners_eq_shape]
    exact (h.filter _).map _
  unfold processStage
  rw [List.map_map, List.map_map]
  have heq1 : ∀ r : Match P,
      (algShape ∘ stageRow k stage ((ms.filter fun r => r.round = none).map (·.loser))
        ((ms.filter fun r => r.round = none).map (·.winner))) r =
      (shapeStage k stage ((ms.filter fun r => r.round = none).map (·.loser))
        ((ms.filter fun r => r.round = none).map (·.winner)) ∘ algShape) r := by
    intro r
    exact algShape_stageRow _ _ _ _ r
  have heq2 : ∀ r : Match P,
      (algShape ∘ stageRow k stage ((ms'.filter fun r => r.round = none).map (·.loser))
        ((ms'.filter fun r => r.round = none).map (·.winner))) r =
      (shapeStage k stage ((ms.filter fun r => r.round = none).map (·.loser))
        ((ms.filter fun r => r.round = none).map (·.winner)) ∘ algShape) r := by
    intro r
    rw [Function.comp_apply, algShape_stageRow]
    exact (shapeStage_congr k stage (fun x => hlp.mem_iff.symm) (fun x => hwp.mem_iff.symm)
      (algShape r))
  rw [List.map_congr_left fun r _ => heq1 r, List.map_congr_left fun r _ => heq2 r]
  rw [← List.map_map, ← List.map_map]
  exact h.map _

theorem foldStages_shape_perm {P : Type} [DecidableEq P] (k : ℕ) :
    ∀ (stages : List ℕ) {ms ms' : List (Match P)},
      (ms.map algShape).Perm (ms'.map algShape) →
      ((stages.foldl (fun rs stage => processStage k stage rs) ms).map algShape).Perm
        ((stages.foldl (fun rs stage => processStage k stage rs) ms').map algShape) := by
  intro stages
  induction stages with
  | nil => intro ms ms' h; exact h
  | cons s ss ih =>
    intro ms ms' h
    exact ih (processStage_shape_perm k s h)

/-- The bracket reconstruction depends on the rows only through their
shapes, up to permutation. -/
theorem reconstruct_shape_perm {P : Type} [DecidableEq P] {ms ms' : List (Match P)}
    (h : (ms.map algShape).Perm (ms'.map algShape)) :
    ((reconstruct_brackets ms).map algShape).Perm
      ((reconstruct_brackets ms').map algShape) := by
  have hlen : ms.length = ms'.length := by
    have := h.length_eq
    simpa using this
  unfold reconstruct_brackets
  rw [hlen]
  exact foldStages_shape_perm _ _ h

theorem stageRow_map {P Q : Type} [DecidableEq P] [DecidableEq Q] {f : P → Q}
    (hf : Function.Injective f) (k stage : ℕ) (ls ws : List P) (row : Match P) :
    stageRow k stage (ls.map f) (ws.map f) (mapPlayers f row) =
      mapPlayers f (stageRow k stage ls ws row) := by
  unfold stageRow
  by_cases h0 : row.round ≠ none
  · simp [mapPlayers, h0]
  · by_cases h2 : stage = 2 ∧ (row.winner ∈ ls ∧ row.winner ∉ ws) ∧
      (row.loser ∈ ls ∧ row.loser ∉ ws)
    · by_cases h1 : row.loser ∈ ls ∧ row.loser ∉ ws <;>
        simp [mapPlayers, h0, h1, h2, List.mem_map_of_injective hf]
    · by_cases h1 : row.loser ∈ ls ∧ row.loser ∉ ws
      · have h2' : ¬(stage = 2 ∧ row.winner ∈ ls ∧ row.winner ∉ ws) :=
          fun hc => h2 ⟨hc.1, hc.2, h1⟩
        simp [mapPlayers, h0, h1, h2, h2', List.mem_map_of_injective hf]
      · simp [mapPlayers, h0, h1, h2, List.mem_map_of_injective hf]

theorem processStage_map {P Q : Type} [DecidableEq P] [DecidableEq Q] {f : P → Q}
    (hf : Function.Injective f) (k stage : ℕ) (rows : List (Match P)) :
    processStage k stage (rows.map (mapPlayers f)) =
      (processStage k stage rows).map (mapPlayers f) := by
  unfold processStage
  have hfil : (rows.map (mapPlayers f)).filter (fun r => r.round = none) =
      (rows.filter fun r => r.round = none).map (mapPlayers f) := by
    rw [filter_of_map]
    rfl
  rw [hfil, List.map_map, List.map_map, List.map_map, List.map_map]
  refine List.map_congr_left fun row _ => ?_
  have hls : ((rows.filter fun r => r.round = none).map fun r => (mapPlayers f r).loser) =
      ((rows.filter fun r => r.round = none).map (·.loser)).map f := by
    rw [List.map_map]
    rfl
  have hws : ((rows.filter fun r => r.round = none).map fun r => (mapPlayers f r).winner) =
      ((rows.filter fun r => r.round = none).map (·.winner)).map f := by
    rw [List.map_map]
    rfl
  show stageRow k stage _ _ (mapPlayers f row) = mapPlayers f (stageRow k stage _ _ row)
  rw [show ((rows.filter fun r => r.round = none).map ((·.loser) ∘ mapPlayers f)) =
      ((rows.filter fun r => r.round = none).map (·.loser)).map f from hls,
    show ((rows.filter fun r => r.round = none).map ((·.winner) ∘ mapPlayers f)) =
      ((rows.filter fun r => r.round = none).map (·.winner)).map f from hws]
  exact stageRow_map hf k stage _ _ row

theorem foldStages_map {P Q : Type} [DecidableEq P] [DecidableEq Q] {f : P → Q}
    (hf : Function.Injective f) (k : ℕ) :
    ∀ (stages : List ℕ) (rows : List (Match P)),
      stages.foldl (fun rs stage => processStage k stage rs) (rows.map (mapPlayers f)) =
        (stages.foldl (fun rs stage => processStage k stage rs) rows).map (mapPlayers f) := by
  intro stages
  induction stages with
  | nil => intro rows; rfl
  | cons s ss ih =>
    intro rows
    rw [List.foldl_cons, List.foldl_cons, processStage_map hf]
    exact ih _

theorem reconstruct_map {P Q : Type} [DecidableEq P] [DecidableEq Q] {f : P → Q}
    (hf : Function.Injective f) (rows : List (Match P)) :
    reconstruct_brackets (rows.map (mapPlayers f)) =
      (reconstruct_brackets rows).map (mapPlayers f) := by
  unfold reconstruct_brackets
  rw [List.length_map]
  exact foldStages_map hf _ _ rows

/-- C3: on every tournament-instance whose 7 records form a valid
single-elimination bracket, `reconstruct_brackets` assigns exactly 4
records round number 1, exactly 2 records the label "Semi-final", and
exactly 1 record the label "Final". -/
theorem bracket7_reconstruction_counts (ms : List (Match String))
    (hv : ValidBracket7 ms) :
    ((reconstruct_brackets ms).countP fun r => r.rnum == 1) = 4 ∧
      ((reconstruct_brackets ms).countP fun r => r.round == some "Semi-final") = 2 ∧
      ((reconstruct_brackets ms).countP fun r => r.round == some "Final") = 1 := by
  obtain ⟨p, hp, hperm⟩ := hv
  have hres : ((reconstruct_brackets ms).map algShape).Perm
      (((reconstruct_brackets bracket7).map (mapPlayers p)).map algShape) := by
    have h1 : ((reconstruct_brackets ms).map algShape).Perm
        ((reconstruct_brackets (bracket7.map (mapPlayers p))).map algShape) := by
      apply reconstruct_shape_perm
      rw [List.map_map]
      exact hperm
    rw [reconstruct_map hp bracket7] at h1
    exact h1
  have key : ∀ q : String × String × Option String × ℕ → Bool,
      ((reconstruct_brackets ms).countP fun r => q (algShape r)) =
        ((reconstruct_brackets bracket7).countP fun r => q (algShape (mapPlayers p r))) := by
    intro q
    calc ((reconstruct_brackets ms).countP fun r => q (algShape r))
        = ((reconstruct_brackets ms).map algShape).countP q :=
          (List.countP_map q algShape _).symm
      _ = (((reconstruct_brackets bracket7).map (mapPlayers p)).map algShape).countP q :=
          hres.countP_eq q
      _ = ((reconstruct_brackets bracket7).map (algShape ∘ mapPlayers p)).countP q := by
          rw [List.map_map]
      _ = ((reconstruct_brackets bracket7).countP fun r => q (algShape (mapPlayers p r))) :=
          List.countP_map q _ _
  have e1 : ((reconstruct_brackets bracket7).countP
      fun r => (algShape (mapPlayers p r)).2.2.2 == 1) =
      ((reconstruct_brackets bracket7).countP fun r => r.rnum == 1) := rfl
  have e2 : ((reconstruct_brackets bracket7).countP
      fun r => (algShape (mapPlayers p r)).2.2.1 == some "Semi-final") =
      ((reconstruct_brackets bracket7).countP fun r => r.round == some "Semi-final") := rfl
  have e3 : ((reconstruct_brackets bracket7).countP
      fun r => (algShape (mapPlayers p r)).2.2.1 == some "Final") =
      ((reconstruct_brackets bracket7).countP fun r => r.round == some "Final") := rfl
  refine ⟨?_, ?_, ?_⟩
  · exact (key fun t => t.2.2.2 == 1).trans (e1.trans (by decide))
  · exact (key fun t => t.2.2.1 == some "Semi-final").trans (e2.trans (by decide))
  · exact (key fun t => t.2.2.1 == some "Final").trans (e3.trans (by decide))

/-- Witness for `bracket7_reconstruction_counts` at a concrete instance. -/
theorem bracket7_reconstruction_counts_witness :
    ValidBracket7 bracket7String ∧
      ((reconstruct_brackets bracket7String).countP fun r => r.rnum == 1) = 4 ∧
      ((reconstruct_brackets bracket7String).countP fun r => r.round == some "Semi-final") = 2 ∧
      ((reconstruct_brackets bracket7String).countP fun r => r.round == some "Final") = 1 := by
  have hv : ValidBracket7 bracket7String := by
    refine ⟨playerName, by decide, ?_⟩
    rw [bracket7String, List.map_map]
  exact ⟨hv, bracket7_reconstruction_counts _ hv⟩

theorem mem_updateEntry {V : Type} (k : String) (f : V → V) :
    ∀ (l : List (String × V)) (e : String × V),
      e ∈ updateEntry k f l → e ∈ l ∨ e.1 = k := by
  intro l
  induction l with
  | nil => intro e he; exact Or.inl he
  | cons kv rest ih =>
    intro e he
    by_cases h : kv.1 = k
    · rw [show (kv :: rest : List (String × V)) = (kv.1, kv.2) :: rest by rfl,
        updateEntry, if_pos h] at he
      rcases List.mem_cons.mp he with rfl | hrest
      · exact Or.inr h
      · exact Or.inl (List.mem_cons_of_mem _ hrest)
    · rw [show (kv :: rest : List (String × V)) = (kv.1, kv.2) :: rest by rfl,
        updateEntry, if_neg h] at he
      rcases List.mem_cons.mp he with rfl | hrest
      · exact Or.inl (List.mem_cons_self _ _)
      · rcases ih e hrest with h' | h'
        · exact Or.inl (List.mem_cons_of_mem _ h')
        · exact Or.inr h'

theorem compareRowPlayer_invariant {p pl : String} {rank : ℤ} {st st'}
    (hst : UnfilledFor p st) (hrank : pl = p → rank = 0)
    (hok : compareRowPlayer pl rank st = Except.ok st') : UnfilledFor p st' := by
  unfold compareRowPlayer at hok
  cases hlook : st.1.lookup pl with
  | none => rw [hlook] at hok; exact absurd hok (by simp)
  | some v =>
    rw [hlook] at hok
    replace hok : (if v.2 = none ∧ rank ≠ 0 then
        Except.ok (updateEntry pl (fun w => (w.1, some rank)) st.1,
          updateEntry pl (fun w => (w.1, some rank)) st.2)
      else Except.ok st) = Except.ok st' := hok
    by_cases hcond : v.2 = none ∧ rank ≠ 0
    · rw [if_pos hcond] at hok
      have hplp : pl ≠ p := by
        intro h
        exact hcond.2 (hrank h)
      cases hok
      constructor
      · intro e he hep
        rcases mem_updateEntry pl _ st.1 e he with h' | h'
        · exact hst.1 e h' hep
        · exact absurd (hep.symm.trans h') (Ne.symm hplp)
      · intro e he hep
        rcases mem_updateEntry pl _ st.2 e he with h' | h'
        · exact hst.2 e h' hep
        · exact absurd (hep.symm.trans h') (Ne.symm hplp)
    · rw [if_neg hcond] at hok
      cases hok
      exact hst

theorem compare_fold_invariant (p : String) :
    ∀ (tournData : List (Match String)) st st',
      UnfilledFor p st →
      (∀ row ∈ tournData, (row.player1 = p → row.rank1 = 0) ∧
        (row.player2 = p → row.rank2 = 0)) →
      (tournData.foldlM
        (fun st row => do
          let st1 ← compareRowPlayer row.player1 row.rank1 st
          compareRowPlayer row.player2 row.rank2 st1)
        st) = Except.ok st' →
      UnfilledFor p st' := by
  intro tournData
  induction tournData with
  | nil =>
    intro st st' hst _ hok
    rw [List.foldlM_nil] at hok
    cases hok
    exact hst
  | cons row rest ih =>
    intro st st' hst hzero hok
    rw [List.foldlM_cons] at hok
    cases h1 : compareRowPlayer row.player1 row.rank1 st with
    | error e => rw [h1] at hok; exact absurd hok (by simp [Bind.bind, Except.bind])
    | ok st1 =>
      rw [h1] at hok
      cases h2 : compareRowPlayer row.player2 row.rank2 st1 with
      | error e =>
        rw [show (Except.ok st1 >>= fun st1 =>
            compareRowPlayer row.player2 row.rank2 st1) =
          compareRowPlayer row.player2 row.rank2 st1 from rfl, h2] at hok
        exact absurd hok (by simp [Bind.bind, Except.bind])
      | ok st2 =>
        rw [show (Except.ok st1 >>= fun st1 =>
            compareRowPlayer row.player2 row.rank2 st1) =
          compareRowPlayer row.player2 row.rank2 st1 from rfl, h2] at hok
        have hz := hzero row (List.mem_cons_self _ _)
        have hst1 := compareRowPlayer_invariant hst hz.1 h1
        have hst2 := compareRowPlayer_invariant hst1 hz.2 h2
        exact ih st2 st' hst2 (fun r hr => hzero r (List.mem_cons_of_mem _ hr)) hok

/-- C7: a participant whose recorded official rank is the unranked sentinel
0 in every row of the tournament-instance contributes no output row of the
comparator for that instance, even when they have a WBW score from the
trailing window: their rank slot is never filled, so the `len(v) == 2`
filter drops them from both emitted tables. -/
theorem compare_wbw_wta_skips_unranked (wbwScores : List (String × ℚ))
    (tournData : List (Match String)) (p : String)
    (_hp : p ∈ wbwScores.map Prod.fst)
    (hzero : ∀ row ∈ tournData, (row.player1 = p → row.rank1 = 0) ∧
      (row.player2 = p → row.rank2 = 0))
    (st : List (String × (ℚ × Option ℤ)) × List (String × (ℕ × Option ℤ)))
    (hres : compareTournamentState wbwScores tournData = Except.ok st) :
    p ∉ ((st.1.filter fun kv => kv.2.2.isSome).map Prod.fst) ∧
      p ∉ ((st.2.filter fun kv => kv.2.2.isSome).map Prod.fst) := by
  have hst0 : UnfilledFor p
      ((wbwScores.map fun kv => (kv.1, (kv.2, none))),
        ((List.enumFrom 1 (sortDescBy wbwScores)).map fun iv => (iv.2.1, (iv.1, none)))) := by
    constructor
    · intro e he _
      obtain ⟨kv, _, rfl⟩ := List.mem_map.mp he
      rfl
    · intro e he _
      obtain ⟨iv, _, rfl⟩ := List.mem_map.mp he
      rfl
  have hfin : UnfilledFor p st :=
    compare_fold_invariant p tournData _ st hst0 hzero hres
  constructor
  · intro hmem
    obtain ⟨e, hef, hep⟩ := List.mem_map.mp hmem
    have := hfin.1 e (List.mem_filter.mp hef).1 hep
    have hs := (List.mem_filter.mp hef).2
    rw [this] at hs
    exact absurd hs (by simp)
  · intro hmem
    obtain ⟨e, hef, hep⟩ := List.mem_map.mp hmem
    have := hfin.2 e (List.mem_filter.mp hef).1 hep
    have hs := (List.mem_filter.mp hef).2
    rw [this] at hs
    exact absurd hs (by simp)

/-- Witness for `compare_wbw_wta_skips_unranked` at a concrete instance:
player A is unranked (sentinel 0) but has a WBW score; only B's row is
emitted. -/
theorem compare_wbw_wta_skips_unranked_witness :
    ("A" ∈ wbwScoresW.map Prod.fst) ∧
      (∀ row ∈ tournDataW, (row.player1 = "A" → row.rank1 = 0) ∧
        (row.player2 = "A" → row.rank2 = 0)) ∧
      compareTournamentState wbwScoresW tournDataW = Except.ok compareStateW ∧
      ("A" ∉ ((compareStateW.1.filter fun kv => kv.2.2.isSome).map Prod.fst) ∧
        "A" ∉ ((compareStateW.2.filter fun kv => kv.2.2.isSome).map Prod.fst)) :=
  ⟨by decide, by decide, rfl,
    compare_wbw_wta_skips_unranked wbwScoresW tournDataW "A" (by decide) (by decide)
      compareStateW rfl⟩

theorem setGroup_good {P : Type} (r : Match P) : GoodRow (setGroup r) :=
  Or.inl ⟨rfl, rfl⟩

theorem reclass_length {P : Type} :
    ∀ (l : List (Match P)) (n : ℕ), (reclass l n).length = l.length := by
  intro l
  induction l with
  | nil => intro n; rfl
  | cons r rs ih =>
    intro n
    cases n with
    | zero => rfl
    | succ n => simp [reclass, ih n]

theorem reclass_get_ne {P : Type} :
    ∀ (l : List (Match P)) (n : ℕ) (i : ℕ) (hi : i < l.length)
      (hi' : i < (reclass l n).length), i ≠ n →
      (reclass l n).get ⟨i, hi'⟩ = l.get ⟨i, hi⟩ := by
  intro l
  induction l with
  | nil => intro n i hi; exact absurd hi (by simp)
  | cons r rs ih =>
    intro n i hi hi' hne
    cases n with
    | zero =>
      cases i with
      | zero => exact absurd rfl hne
      | succ i => simp [reclass]
    | succ n =>
      cases i with
      | zero => simp [reclass]
      | succ i =>
        have := ih n i (by simpa using hi) (by simpa [reclass_length] using hi')
          (fun h => hne (by omega))
        simpa [reclass] using this

theorem reclass_mem {P : Type} :
    ∀ (l : List (Match P)) (n : ℕ) (r : Match P), r ∈ reclass l n →
      r ∈ l ∨ ∃ r' ∈ l, r = setGroup r' := by
  intro l
  induction l with
  | nil => intro n r hr; exact Or.inl hr
  | cons q qs ih =>
    intro n r hr
    cases n with
    | zero =>
      rcases List.mem_cons.mp hr with rfl | h
      · exact Or.inr ⟨q, List.mem_cons_self _ _, rfl⟩
      · exact Or.inl (List.mem_cons_of_mem _ h)
    | succ n =>
      rcases List.mem_cons.mp hr with rfl | h
      · exact Or.inl (List.mem_cons_self _ _)
      · rcases ih n r h with h' | ⟨r', hr', hrr⟩
        · exact Or.inl (List.mem_cons_of_mem _ h')
        · exact Or.inr ⟨r', List.mem_cons_of_mem _ hr', hrr⟩

theorem reclass_get_self {P : Type} :
    ∀ (l : List (Match P)) (n : ℕ) (hn : n < l.length)
      (hn' : n < (reclass l n).length),
      (reclass l n).get ⟨n, hn'⟩ = setGroup (l.get ⟨n, hn⟩) := by
  intro l
  induction l with
  | nil => intro n hn; exact absurd hn (by simp)
  | cons r rs ih =>
    intro n hn hn'
    cases n with
    | zero => rfl
    | succ n =>
      have := ih n (by simpa using hn) (by simpa [reclass_length] using hn')
      simpa [reclass] using this

theorem isFinalRow_setGroup {P : Type} (r : Match P) : isFinalRow (setGroup r) = false := by
  rfl

theorem reclass_countP_final_eq {P : Type} :
    ∀ (l : List (Match P)) (n : ℕ) (hn : n < l.length),
      (l.get ⟨n, hn⟩).round = some "Final" →
      (reclass l n).countP isFinalRow + 1 = l.countP isFinalRow := by
  intro l
  induction l with
  | nil => intro n hn; exact absurd hn (by simp)
  | cons r rs ih =>
    intro n hn hfin
    cases n with
    | zero =>
      have hr : isFinalRow r = true := by
        simp only [isFinalRow]
        simp [show r.round = some "Final" from hfin]
      simp [reclass, List.countP_cons, hr, isFinalRow_setGroup]
    | succ n =>
      have := ih n (by simpa using hn) (by simpa using hfin)
      simp only [reclass, List.countP_cons]
      omega

theorem reclass_countP_final_ne {P : Type} :
    ∀ (l : List (Match P)) (n : ℕ) (hn : n < l.length),
      (l.get ⟨n, hn⟩).round ≠ some "Final" →
      (reclass l n).countP isFinalRow = l.countP isFinalRow := by
  intro l
  induction l with
  | nil => intro n hn; exact absurd hn (by simp)
  | cons r rs ih =>
    intro n hn hfin
    cases n with
    | zero =>
      have hr : isFinalRow r = false := by
        simp only [isFinalRow]
        simpa using hfin
      simp [reclass, List.countP_cons, hr, isFinalRow_setGroup]
    | succ n =>
      have := ih n (by simpa using hn) (by simpa using hfin)
      simp only [reclass, List.countP_cons]
      omega

theorem get_append_one_left {α : Type} (l : List α) (x : α) (i : ℕ) (hi : i < l.length)
    (hi' : i < (l ++ [x]).length) : (l ++ [x]).get ⟨i, hi'⟩ = l.get ⟨i, hi⟩ :=
  List.get_append i hi

theorem get_append_one_last {α : Type} :
    ∀ (l : List α) (x : α) (h : l.length < (l ++ [x]).length),
      (l ++ [x]).get ⟨l.length, h⟩ = x := by
  intro l
  induction l with
  | nil => intro x h; rfl
  | cons a l ih =>
    intro x h
    simpa using ih x (by simp)

theorem isFinalRow_of_round {P : Type} {r : Match P} (h : r.round = some "Final") :
    isFinalRow r = true := by
  simp [isFinalRow, h]

theorem isFinalRow_of_round_ne {P : Type} {r : Match P} (h : r.round ≠ some "Final") :
    isFinalRow r = false := by
  simpa [isFinalRow] using h

/-- Appending a labeled row: helper for the invariant preservation. -/
theorem rr_append_invariant {P : Type} {st : RRState P} {nF : ℕ} (hinv : RRInv st nF)
    (row' : Match P) (hgood : GoodRow row') (hnotF : isFinalRow row' = false)
    {fc' sc' : ℕ} (hfc : fc' = st.fc) (hsc : sc' = st.sc) :
    RRInv ⟨st.out ++ [row'], fc', sc', st.savedF, st.savedS⟩ nF := by
  constructor
  · intro r hr
    rcases List.mem_append.mp hr with h | h
    · exact hinv.good r h
    · rcases List.mem_singleton.mp h with rfl
      exact hgood
  · rw [hfc]; exact hinv.fc_eq
  · rw [hsc]; exact hinv.sc_le
  · rw [List.countP_append]
    simp only [List.countP_cons, List.countP_nil, hnotF]
    simpa using hinv.fcount
  · intro h1
    obtain ⟨hlt, hfin⟩ := hinv.savedF_ok h1
    refine ⟨by simp; omega, ?_⟩
    rw [get_append_one_left _ _ _ hlt]
    exact hfin
  · intro hsc2
    rw [hsc] at hsc2
    obtain ⟨hlt, hv⟩ := hinv.savedS_ok hsc2
    refine ⟨by simp; omega, ?_⟩
    rw [get_append_one_left _ _ _ hlt]
    exact hv

theorem rrStep_invariant_F {P : Type} [DecidableEq P] {gsl fl : List P}
    {st : RRState P} {nF : ℕ} {row : Match P} (hinv : RRInv st nF) (hnF : nF ≤ 1)
    (hF : rrIsF gsl fl row) : RRInv (rrStep gsl fl st row) (nF + 1) := by
  obtain ⟨hc1, hc2⟩ := hF
  unfold rrStep
  rw [if_neg hc1, if_pos hc2]
  by_cases hfc : st.fc = 1
  · -- first finals pairing encountered
    have hnF0 : nF = 0 := by
      by_contra h
      have := hinv.fc_eq
      rw [if_neg h] at this
      omega
    rw [if_pos hfc]
    subst hnF0
    constructor
    · intro r hr
      rcases List.mem_append.mp hr with h | h
      · exact hinv.good r h
      · rcases List.mem_singleton.mp h with rfl
        exact Or.inr (Or.inr ⟨rfl, rfl⟩)
    · simp [hfc]
    · exact hinv.sc_le
    · have h0 : st.out.countP isFinalRow = 0 := by simpa using hinv.fcount
      rw [List.countP_append, h0]
      rfl
    · intro _
      refine ⟨by simp, ?_⟩
      rw [get_append_one_last]
    · intro hsc2
      obtain ⟨hlt, hv⟩ := hinv.savedS_ok hsc2
      refine ⟨by simp; omega, ?_⟩
      rw [get_append_one_left _ _ _ hlt]
      exact hv
  · -- a finals pairing was already recorded: relabel the earlier one
    have hnF1 : nF = 1 := by
      rcases Nat.lt_or_ge nF 1 with h | h
      · interval_cases nF
        · exact absurd (hinv.fc_eq.trans (by simp)) hfc
      · omega
    rw [if_neg hfc]
    subst hnF1
    obtain ⟨hltF, hfinF⟩ := hinv.savedF_ok rfl
    constructor
    · intro r hr
      rcases List.mem_append.mp hr with h | h
      · rcases reclass_mem _ _ _ h with h' | ⟨r', _, rfl⟩
        · exact hinv.good r h'
        · exact setGroup_good r'
      · rcases List.mem_singleton.mp h with rfl
        exact Or.inr (Or.inr ⟨rfl, rfl⟩)
    · simpa using hinv.fc_eq
    · exact hinv.sc_le
    · have h0 : st.out.countP isFinalRow = 1 := by simpa using hinv.fcount
      have hdec := reclass_countP_final_eq st.out st.savedF hltF hfinF
      rw [List.countP_append]
      have hone : List.countP isFinalRow
          [{row with round := some "Final", rnum := 3}] = 1 := rfl
      rw [hone, show min (1 + 1) 1 = 1 from rfl]
      omega
    · intro h
      exact absurd h (by omega)
    · intro hsc2
      obtain ⟨hltS, hvS⟩ := hinv.savedS_ok hsc2
      have hltS' : st.savedS < (reclass st.out st.savedF).length := by
        rw [reclass_length]
        exact hltS
      have hlen : st.savedS <
          (reclass st.out st.savedF ++
            [{row with round := some "Final", rnum := 3}]).length := by
        rw [List.length_append, reclass_length]
        exact Nat.lt_of_lt_of_le hltS (by simp)
      refine ⟨hlen, ?_⟩
      rw [get_append_one_left _ _ _ hltS']
      by_cases hss : st.savedS = st.savedF
      · have hfe : (⟨st.savedS, hltS'⟩ : Fin (reclass st.out st.savedF).length) =
            ⟨st.savedF, by rw [reclass_length]; exact hltF⟩ := Fin.ext hss
        rw [hfe, reclass_get_self _ _ hltF]
        exact Or.inr rfl
      · rw [reclass_get_ne _ _ _ hltS _ hss]
        exact hvS

theorem rrStep_invariant_notF {P : Type} [DecidableEq P] {gsl fl : List P}
    {st : RRState P} {nF : ℕ} {row : Match P} (hinv : RRInv st nF)
    (hF : ¬rrIsF gsl fl row) : RRInv (rrStep gsl fl st row) nF := by
  unfold rrStep
  by_cases hc1 : row.player1 ∈ gsl ∨ row.player2 ∈ gsl
  · rw [if_pos hc1]
    exact rr_append_invariant hinv _ (setGroup_good row) (isFinalRow_setGroup row) rfl rfl
  · have hc2 : ¬(row.player1 ∈ fl ∧ row.player2 ∈ fl) :=
      fun hc2 => hF ⟨hc1, hc2⟩
    rw [if_neg hc1, if_neg hc2]
    by_cases hc3 : (row.player1 ∈ fl ∨ row.player2 ∈ fl) ∧ row.round = none
    · rw [if_pos hc3]
      by_cases hsc2 : st.sc = 2
      · rw [if_pos hsc2]
        constructor
        · intro r hr
          rcases List.mem_append.mp hr with h | h
          · exact hinv.good r h
          · rcases List.mem_singleton.mp h with rfl
            exact Or.inr (Or.inl ⟨rfl, rfl⟩)
        · exact hinv.fc_eq
        · show st.sc - 1 ≤ 2
          have := hinv.sc_le
          omega
        · rw [List.countP_append]
          have : List.countP isFinalRow
              [{row with round := some "Semi-final", rnum := 2}] = 0 := rfl
          rw [this, Nat.add_zero]
          exact hinv.fcount
        · intro h1
          obtain ⟨hlt, hfin⟩ := hinv.savedF_ok h1
          refine ⟨by simp; omega, ?_⟩
          rw [get_append_one_left _ _ _ hlt]
          exact hfin
        · intro _
          refine ⟨by simp, ?_⟩
          rw [get_append_one_last]
          exact Or.inl rfl
      · by_cases hsc1 : st.sc = 1
        · rw [if_neg hsc2, if_pos hsc1]
          constructor
          · intro r hr
            rcases List.mem_append.mp hr with h | h
            · exact hinv.good r h
            · rcases List.mem_singleton.mp h with rfl
              exact Or.inr (Or.inl ⟨rfl, rfl⟩)
          · exact hinv.fc_eq
          · show st.sc - 1 ≤ 2
            have := hinv.sc_le
            omega
          · rw [List.countP_append]
            have : List.countP isFinalRow
                [{row with round := some "Semi-final", rnum := 2}] = 0 := rfl
            rw [this, Nat.add_zero]
            exact hinv.fcount
          · intro h1
            obtain ⟨hlt, hfin⟩ := hinv.savedF_ok h1
            refine ⟨by simp; omega, ?_⟩
            rw [get_append_one_left _ _ _ hlt]
            exact hfin
          · intro _
            obtain ⟨hlt, hv⟩ := hinv.savedS_ok (by omega)
            refine ⟨by simp; omega, ?_⟩
            rw [get_append_one_left _ _ _ hlt]
            exact hv
        · rw [if_neg hsc2, if_neg hsc1]
          have hsc0 : st.sc = 0 := by
            have := hinv.sc_le
            omega
          obtain ⟨hltS, hvS⟩ := hinv.savedS_ok (by omega)
          have hSnotFin : (st.out.get ⟨st.savedS, hltS⟩).round ≠ some "Final" := by
            rcases hvS with h | h <;> rw [h] <;> simp
          constructor
          · intro r hr
            rcases List.mem_append.mp hr with h | h
            · rcases reclass_mem _ _ _ h with h' | ⟨r', _, rfl⟩
              · exact hinv.good r h'
              · exact setGroup_good r'
            · rcases List.mem_singleton.mp h with rfl
              exact Or.inr (Or.inl ⟨rfl, rfl⟩)
          · exact hinv.fc_eq
          · exact hinv.sc_le
          · rw [List.countP_append]
            have hz : List.countP isFinalRow
                [{row with round := some "Semi-final", rnum := 2}] = 0 := rfl
            rw [hz, Nat.add_zero, reclass_countP_final_ne st.out st.savedS hltS hSnotFin]
            exact hinv.fcount
          · intro h1
            obtain ⟨hltF, hfinF⟩ := hinv.savedF_ok h1
            have hne : st.savedF ≠ st.savedS := by
              intro h
              have hfe : (⟨st.savedF, hltF⟩ : Fin st.out.length) =
                  ⟨st.savedS, hltS⟩ := Fin.ext h
              rw [hfe] at hfinF
              rcases hvS with hv | hv <;> rw [hfinF] at hv <;> exact absurd hv (by simp)
            have hltF' : st.savedF < (reclass st.out st.savedS).length := by
              rw [reclass_length]
              exact hltF
            refine ⟨by rw [List.length_append, reclass_length]
                       exact Nat.lt_of_lt_of_le hltF (by simp), ?_⟩
            rw [get_append_one_left _ _ _ hltF', reclass_get_ne _ _ _ hltF _ hne]
            exact hfinF
          · intro _
            have hltS' : st.savedS < (reclass st.out st.savedS).length := by
              rw [reclass_length]
              exact hltS
            refine ⟨by rw [List.length_append, reclass_length]
                       exact Nat.lt_of_lt_of_le hltS (by simp), ?_⟩
            rw [get_append_one_left _ _ _ hltS', reclass_get_self _ _ hltS]
            exact Or.inr rfl
    · rw [if_neg hc3]
      exact rr_append_invariant hinv _ (setGroup_good row) (isFinalRow_setGroup row) rfl rfl

theorem rr_fold_invariant {P : Type} [DecidableEq P] (gsl fl : List P) :
    ∀ (rows : List (Match P)) (st : RRState P) (nF : ℕ), RRInv st nF →
      nF + rows.countP (fun r => decide (rrIsF gsl fl r)) ≤ 2 →
      RRInv (rows.foldl (rrStep gsl fl) st)
        (nF + rows.countP (fun r => decide (rrIsF gsl fl r))) := by
  intro rows
  induction rows with
  | nil =>
    intro st nF hinv _
    simpa using hinv
  | cons row rest ih =>
    intro st nF hinv hle
    rw [List.countP_cons] at hle
    rw [List.foldl_cons, List.countP_cons]
    by_cases hF : rrIsF gsl fl row
    · have hd : decide (rrIsF gsl fl row) = true := decide_eq_true hF
      simp only [hd, if_pos] at hle ⊢
      have hnF : nF ≤ 1 := by omega
      have hstep := rrStep_invariant_F hinv hnF hF
      have hrec := ih (rrStep gsl fl st row) (nF + 1) hstep (by omega)
      have harith : nF + 1 + rest.countP (fun r => decide (rrIsF gsl fl r)) =
          nF + (rest.countP (fun r => decide (rrIsF gsl fl r)) + 1) := by omega
      rw [← harith]
      exact hrec
    · have hd : decide (rrIsF gsl fl row) = false := decide_eq_false hF
      simp only [hd] at hle ⊢
      have hstep := rrStep_invariant_notF hinv hF
      have hrec := ih (rrStep gsl fl st row) nF hstep (by omega)
      simpa using hrec

theorem rrStep_out_length {P : Type} [DecidableEq P] (gsl fl : List P)
    (st : RRState P) (row : Match P) :
    (rrStep gsl fl st row).out.length = st.out.length + 1 := by
  unfold rrStep
  by_cases hc1 : row.player1 ∈ gsl ∨ row.player2 ∈ gsl
  · simp [hc1]
  · by_cases hc2 : row.player1 ∈ fl ∧ row.player2 ∈ fl
    · by_cases hfc : st.fc = 1 <;> simp [hc1, hc2, hfc, reclass_length]
    · by_cases hc3 : (row.player1 ∈ fl ∨ row.player2 ∈ fl) ∧ row.round = none
      · by_cases hsc2 : st.sc = 2
        · simp [hc1, hc2, hc3, hsc2]
        · by_cases hsc1 : st.sc = 1 <;>
            simp [hc1, hc2, hc3, hsc2, hsc1, reclass_length]
      · simp [hc1, hc2, hc3]

theorem rr_fold_out_length {P : Type} [DecidableEq P] (gsl fl : List P) :
    ∀ (rows : List (Match P)) (st : RRState P),
      (rows.foldl (rrStep gsl fl) st).out.length = st.out.length + rows.length := by
  intro rows
  induction rows with
  | nil => intro st; simp
  | cons row rest ih =>
    intro st
    rw [List.foldl_cons, ih, rrStep_out_length]
    simp
    omega

/-- The classification loop of `reconstruct_brackets_rr`, on any instance
whose finals-branch rows number 1 or 2: every emitted record (one per input
record) carries one of the three labels with round number in {1,2,3}, and
exactly one record is labeled "Final". -/
theorem rr_fold_props {P : Type} [DecidableEq P] (gsl fl : List P)
    (rows : List (Match P))
    (hcnt : rows.countP (fun r => decide (rrIsF gsl fl r)) = 1 ∨
      rows.countP (fun r => decide (rrIsF gsl fl r)) = 2) :
    (∀ r ∈ (rows.foldl (rrStep gsl fl) ⟨[], 1, 2, 0, 0⟩).out, GoodRow r) ∧
      (rows.foldl (rrStep gsl fl) ⟨[], 1, 2, 0, 0⟩).out.countP isFinalRow = 1 ∧
      (rows.foldl (rrStep gsl fl) ⟨[], 1, 2, 0, 0⟩).out.length = rows.length := by
  have hinv0 : RRInv (⟨[], 1, 2, 0, 0⟩ : RRState P) 0 := by
    constructor
    · intro r hr
      exact absurd hr (List.not_mem_nil r)
    · rfl
    · show (2 : ℕ) ≤ 2
      omega
    · rfl
    · intro h
      exact absurd h (by omega)
    · intro h
      have h2 : (2 : ℕ) < 2 := h
      exact absurd h2 (by omega)
  have hle : 0 + rows.countP (fun r => decide (rrIsF gsl fl r)) ≤ 2 := by omega
  have hfin := rr_fold_invariant gsl fl rows _ 0 hinv0 hle
  have hlen : (rows.foldl (rrStep gsl fl) ⟨[], 1, 2, 0, 0⟩).out.length = rows.length := by
    have := rr_fold_out_length gsl fl rows ⟨[], 1, 2, 0, 0⟩
    simpa using this
  refine ⟨hfin.good, ?_, hlen⟩
  have := hfin.fcount
  rcases hcnt with h | h <;> rw [h] at this <;> simpa using this

theorem sym2_exists_mem {α : Type} (a b : α) (Q : α → Prop) :
    (∃ x ∈ Sym2.mk (a, b), Q x) ↔ Q a ∨ Q b := by
  constructor
  · rintro ⟨x, hx, hq⟩
    rcases Sym2.mem_iff.mp hx with rfl | rfl
    · exact Or.inl hq
    · exact Or.inr hq
  · rintro (h | h)
    · exact ⟨a, Sym2.mem_iff.mpr (Or.inl rfl), h⟩
    · exact ⟨b, Sym2.mem_iff.mpr (Or.inr rfl), h⟩

theorem sym2_forall_mem {α : Type} (a b : α) (Q : α → Prop) :
    (∀ x ∈ Sym2.mk (a, b), Q x) ↔ Q a ∧ Q b := by
  constructor
  · intro h
    exact ⟨h a (Sym2.mem_iff.mpr (Or.inl rfl)), h b (Sym2.mem_iff.mpr (Or.inr rfl))⟩
  · rintro ⟨ha, hb⟩ x hx
    rcases Sym2.mem_iff.mp hx with rfl | rfl
    · exact ha
    · exact hb

theorem sym2_map_exists_mem {α β : Type} (f : α → β) (e : Sym2 α) (Q : β → Prop) :
    (∃ x ∈ Sym2.map f e, Q x) ↔ ∃ i ∈ e, Q (f i) := by
  constructor
  · rintro ⟨x, hx, hq⟩
    obtain ⟨i, hi, rfl⟩ := Sym2.mem_map.mp hx
    exact ⟨i, hi, hq⟩
  · rintro ⟨i, hi, hq⟩
    exact ⟨f i, Sym2.mem_map.mpr ⟨i, hi, rfl⟩, hq⟩

theorem sym2_map_forall_mem {α β : Type} (f : α → β) (e : Sym2 α) (Q : β → Prop) :
    (∀ x ∈ Sym2.map f e, Q x) ↔ ∀ i ∈ e, Q (f i) := by
  constructor
  · intro h i hi
    exact h (f i) (Sym2.mem_map.mpr ⟨i, hi, rfl⟩)
  · rintro h x hx
    obtain ⟨i, hi, rfl⟩ := Sym2.mem_map.mp hx
    exact h i hi

theorem mem_sym2_map_of_injective {α β : Type} {f : α → β}
    (hf : Function.Injective f) (i : α) (e : Sym2 α) :
    f i ∈ Sym2.map f e ↔ i ∈ e := by
  rw [Sym2.mem_map]
  constructor
  · rintro ⟨a, ha, hfa⟩
    rwa [hf hfa] at ha
  · intro hi
    exact ⟨i, hi, rfl⟩

theorem countP_congr' {α : Type} (p q : α → Bool) :
    ∀ l : List α, (∀ a ∈ l, p a = q a) → l.countP p = l.countP q := by
  intro l
  induction l with
  | nil => intro _; rfl
  | cons a l ih =>
    intro h
    rw [List.countP_cons, List.countP_cons, h a (List.mem_cons_self _ _),
      ih fun x hx => h x (List.mem_cons_of_mem _ hx)]

theorem min?_perm {l l' : List ℕ} (h : l.Perm l') : l.min? = l'.min? := by
  cases hm : l.min? with
  | none =>
    rw [List.min?_eq_none_iff] at hm
    subst hm
    have hl' : l' = [] := h.nil_eq.symm
    rw [hl']
    rfl
  | some m =>
    rw [List.min?_eq_some_iff'] at hm
    exact (List.min?_eq_some_iff'.mpr
      ⟨h.mem_iff.mp hm.1, fun x hx => hm.2 x (h.mem_iff.mpr hx)⟩).symm

theorem max?_perm {l l' : List ℕ} (h : l.Perm l') : l.max? = l'.max? := by
  cases hm : l.max? with
  | none =>
    rw [List.max?_eq_none_iff] at hm
    subst hm
    have hl' : l' = [] := h.nil_eq.symm
    rw [hl']
    rfl
  | some m =>
    rw [List.max?_eq_some_iff'] at hm
    exact (List.max?_eq_some_iff'.mpr
      ⟨h.mem_iff.mp hm.1, fun x hx => hm.2 x (h.mem_iff.mpr hx)⟩).symm

/-- The participation count factors through the unordered-pair shapes, for
rows whose two participants differ. -/
theorem rr_match_count_shape {P : Type} [DecidableEq P] :
    ∀ (ms : List (Match P)), (∀ r ∈ ms, r.player1 ≠ r.player2) → ∀ x : P,
      rr_match_count ms x = (ms.map pairShape).countP fun e => decide (x ∈ e) := by
  intro ms
  induction ms with
  | nil => intro _ x; rfl
  | cons r rest ih =>
    intro hd x
    have hdr := hd r (List.mem_cons_self _ _)
    have hrest := ih (fun q hq => hd q (List.mem_cons_of_mem _ hq)) x
    unfold rr_match_count at hrest ⊢
    rw [List.map_cons, List.countP_cons, List.countP_cons, List.countP_cons, ← hrest]
    have hmem : (x ∈ pairShape r) ↔ (x = r.player1 ∨ x = r.player2) := Sym2.mem_iff
    by_cases h1 : r.player1 = x
    · have h2 : ¬r.player2 = x := fun h => hdr (h1.trans h.symm)
      have hm : x ∈ pairShape r := hmem.mpr (Or.inl h1.symm)
      simp [h1, h2, hm]
      omega
    · by_cases h2 : r.player2 = x
      · have hm : x ∈ pairShape r := hmem.mpr (Or.inr h2.symm)
        simp [h1, h2, hm]
        omega
      · have hm : ¬x ∈ pairShape r := by
          rw [hmem]
          push_neg
          exact ⟨fun h => h1 h.symm, fun h => h2 h.symm⟩
        simp [h1, h2, hm]

theorem sym2_map_isDiag {α β : Type} {f : α → β} (hf : Function.Injective f)
    (e : Sym2 α) : (Sym2.map f e).IsDiag ↔ e.IsDiag := by
  induction e using Sym2.ind with
  | _ i j =>
    rw [Sym2.map_pair_eq, Sym2.mk_isDiag_iff, Sym2.mk_isDiag_iff]
    exact ⟨fun h => hf h, fun h => congrArg f h⟩

theorem valid_rr_finals_count (ms : List (Match String)) (hv : ValidRRInstance ms) :
    ms.countP (fun r =>
        decide (rrIsF (rr_group_losers ms) (rr_finalists ms) r)) = 1 ∨
      ms.countP (fun r =>
        decide (rrIsF (rr_group_losers ms) (rr_finalists ms) r)) = 2 := by
  obtain ⟨p, hp, b, hperm⟩ := hv
  -- every record's two participants differ
  have hcanon_nd : ∀ e ∈ rrShapeFin b, ¬e.IsDiag := by
    cases b <;> decide
  have hdiag : ∀ r ∈ ms, r.player1 ≠ r.player2 := by
    intro r hr heq
    have hmem : pairShape r ∈ (rrShapeFin b).map (Sym2.map p) :=
      hperm.mem_iff.mp (List.mem_map.mpr ⟨r, hr, rfl⟩)
    obtain ⟨e, he, heq'⟩ := List.mem_map.mp hmem
    have hd : (Sym2.map p e).IsDiag := by
      rw [heq']
      exact Sym2.mk_isDiag_iff.mpr heq
    exact hcanon_nd e he ((sym2_map_isDiag hp e).mp hd)
  -- participation counts transport to the canonical instance
  have hcntp : ∀ i : Fin 8, rr_match_count ms (p i) = cntFin b i := by
    intro i
    rw [rr_match_count_shape ms hdiag (p i), hperm.countP_eq, List.countP_map]
    refine countP_congr' _ _ _ fun e _ => ?_
    simp only [Function.comp_apply]
    exact decide_eq_decide.mpr (mem_sym2_map_of_injective hp i e)
  -- the player universe is the image of the 8 canonical players
  have hcanon_cover : ∀ i : Fin 8, ∃ e ∈ rrShapeFin b, i ∈ e := by
    cases b <;> decide
  have hmem_iff : ∀ x, x ∈ get_unique_players ms ↔ ∃ i : Fin 8, p i = x := by
    intro x
    constructor
    · intro hx
      rw [get_unique_players, List.mem_dedup, List.mem_append] at hx
      have hshape : ∃ e ∈ ms.map pairShape, x ∈ e := by
        rcases hx with h | h
        · obtain ⟨r, hr, rfl⟩ := List.mem_map.mp h
          exact ⟨pairShape r, List.mem_map.mpr ⟨r, hr, rfl⟩,
            Sym2.mem_iff.mpr (Or.inl rfl)⟩
        · obtain ⟨r, hr, rfl⟩ := List.mem_map.mp h
          exact ⟨pairShape r, List.mem_map.mpr ⟨r, hr, rfl⟩,
            Sym2.mem_iff.mpr (Or.inr rfl)⟩
      obtain ⟨e, he, hxe⟩ := hshape
      have he' : e ∈ (rrShapeFin b).map (Sym2.map p) := hperm.mem_iff.mp he
      obtain ⟨e', _, rfl⟩ := List.mem_map.mp he'
      obtain ⟨i, _, rfl⟩ := Sym2.mem_map.mp hxe
      exact ⟨i, rfl⟩
    · rintro ⟨i, rfl⟩
      obtain ⟨e, he, hie⟩ := hcanon_cover i
      have he' : Sym2.map p e ∈ ms.map pairShape :=
        hperm.symm.mem_iff.mp (List.mem_map.mpr ⟨e, he, rfl⟩)
      obtain ⟨r, hr, hre⟩ := List.mem_map.mp he'
      have hpi : p i ∈ pairShape r := by
        rw [hre]
        exact Sym2.mem_map.mpr ⟨i, hie, rfl⟩
      rw [get_unique_players, List.mem_dedup, List.mem_append]
      rcases Sym2.mem_iff.mp hpi with h | h
      · exact Or.inl (List.mem_map.mpr ⟨r, hr, h.symm⟩)
      · exact Or.inr (List.mem_map.mpr ⟨r, hr, h.symm⟩)
  have hplayers : (get_unique_players ms).Perm ((List.finRange 8).map p) := by
    refine List.perm_of_nodup_nodup_toFinset_eq (get_unique_players_nodup ms)
      ((List.nodup_finRange 8).map hp) ?_
    ext x
    simp only [List.mem_toFinset, hmem_iff, List.mem_map, List.mem_finRange]
    constructor
    · rintro ⟨i, rfl⟩
      exact ⟨i, trivial, rfl⟩
    · rintro ⟨i, _, rfl⟩
      exact ⟨i, rfl⟩
  -- the value collections agree up to permutation
  have hvals : ((get_unique_players ms).map (rr_match_count ms)).Perm
      ((List.finRange 8).map (cntFin b)) := by
    have h1 := hplayers.map (rr_match_count ms)
    rw [List.map_map] at h1
    have h2 : (List.finRange 8).map (rr_match_count ms ∘ p) =
        (List.finRange 8).map (cntFin b) :=
      List.map_congr_left fun i _ => hcntp i
    rw [h2] at h1
    exact h1
  have hmin : rr_min_matches ms = 3 := by
    unfold rr_min_matches
    rw [min?_perm (hvals.filter _)]
    cases b <;> decide
  have hmax : rr_max_matches ms = 5 := by
    unfold rr_max_matches
    rw [max?_perm hvals]
    cases b <;> decide
  -- membership in the computed gsl/fl lists, characterized on Fin 8
  have hgsl : ∀ i : Fin 8, (p i ∈ rr_group_losers ms ↔ cntFin b i ≤ 3) := by
    intro i
    unfold rr_group_losers
    rw [List.mem_filter]
    constructor
    · rintro ⟨_, hc⟩
      have := of_decide_eq_true hc
      rwa [hcntp, hmin] at this
    · intro hc
      refine ⟨(hmem_iff (p i)).mpr ⟨i, rfl⟩, decide_eq_true ?_⟩
      rw [hcntp, hmin]
      exact hc
  have hfl : ∀ i : Fin 8, (p i ∈ rr_finalists ms ↔ cntFin b i = 5) := by
    intro i
    unfold rr_finalists
    rw [List.mem_filter]
    constructor
    · rintro ⟨_, hc⟩
      have := of_decide_eq_true hc
      rwa [hcntp, hmax] at this
    · intro hc
      refine ⟨(hmem_iff (p i)).mpr ⟨i, rfl⟩, decide_eq_true ?_⟩
      rw [hcntp, hmax]
      exact hc
  -- transport the finals-category count to the canonical instance
  have hstep1 : ms.countP (fun r =>
      decide (rrIsF (rr_group_losers ms) (rr_finalists ms) r)) =
      (ms.map pairShape).countP (rrIsFShape (rr_group_losers ms) (rr_finalists ms)) := by
    rw [List.countP_map]
    exact countP_congr' _ _ ms fun r _ => rfl
  have hstep2 : (ms.map pairShape).countP
      (rrIsFShape (rr_group_losers ms) (rr_finalists ms)) =
      (rrShapeFin b).countP (rrIsFFinPred b) := by
    rw [hperm.countP_eq, List.countP_map]
    refine countP_congr' _ _ _ fun e _ => ?_
    simp only [Function.comp_apply]
    induction e using Sym2.ind with
    | _ i j =>
      rw [Sym2.map_pair_eq]
      show decide _ = decide _
      refine decide_eq_decide.mpr ?_
      constructor
      · rintro ⟨h1, h2, h3⟩
        exact ⟨fun h => h1 (h.imp (hgsl i).mpr (hgsl j).mpr),
          (hfl i).mp h2, (hfl j).mp h3⟩
      · rintro ⟨h1, h2, h3⟩
        exact ⟨fun h => h1 (h.imp (hgsl i).mp (hgsl j).mp),
          (hfl i).mpr h2, (hfl j).mpr h3⟩
  rw [hstep1, hstep2]
  cases b
  · left
    decide
  · right
    decide

/-- C5: on every valid round-robin tournament-instance,
`reconstruct_brackets_rr` assigns every record a non-empty round label with
a round number in {1,2,3} (each label paired with its number: Group Stage 1,
Semi-final 2, Final 3), and exactly one record ends up labeled "Final" —
also under repeated finalist pairings, where the later-encountered record
wins and the earlier one is reclassified to the group stage. -/
theorem rr_reconstruction_props (ms : List (Match String)) (hv : ValidRRInstance ms) :
    (∀ r ∈ reconstruct_brackets_rr ms, GoodRow r) ∧
      (reconstruct_brackets_rr ms).countP isFinalRow = 1 ∧
      (reconstruct_brackets_rr ms).length = ms.length := by
  have hcnt := valid_rr_finals_count ms hv
  exact rr_fold_props (rr_group_losers ms) (rr_finalists ms) ms hcnt

/-- Witness for `rr_reconstruction_props` at a concrete instance. -/
theorem rr_reconstruction_props_witness :
    ValidRRInstance rrInstanceW ∧
      ((∀ r ∈ reconstruct_brackets_rr rrInstanceW, GoodRow r) ∧
        (reconstruct_brackets_rr rrInstanceW).countP isFinalRow = 1 ∧
        (reconstruct_brackets_rr rrInstanceW).length = rrInstanceW.length) := by
  have hv : ValidRRInstance rrInstanceW := ⟨playerName, by decide, false, by decide⟩
  exact ⟨hv, rr_reconstruction_props rrInstanceW hv⟩
